import Mathlib

/-!
Verification of the Motion Core CLI install pipeline.

This file gives a shallow embedding, in Lean 4, of the parts of the
`motion-core-cli` Rust workspace relevant to its specification: the path
sanitizer (`crates/core/src/paths.rs`), destination resolution
(`crates/core/src/components.rs` and `crates/cli/src/commands/add.rs`),
the dependency-closure install order, the version-satisfaction checker
(`crates/cli/src/deps.rs`), the barrel renderer, the registry client and
its cache (`crates/core/src/registry.rs`, `crates/core/src/cache.rs`),
and the plan/apply pipeline (`crates/core/src/operations/add.rs`).

Modelling conventions:
* Strings are manipulated through structural functions over their
  character lists, so every definition evaluates inside the kernel.
  Rust compares strings byte-wise; Unicode code-point order (used here)
  agrees with UTF-8 byte order, so the modelled order coincides.
* File-system paths are modelled as lists of parsed components
  (`PComponent`), mirroring `std::path::Component` on Unix.
* Rust's `BTreeSet<String>` / `BTreeMap<String, _>` are modelled as
  strictly sorted association lists.
* External-crate behaviour (serde JSON parsing, base64 decoding, the
  `semver` crate, HTTP transport) is modelled by its observable outcome:
  payloads are tagged with their parse/decode result, and the `semver`
  grammar and matching rules are ported from that crate's documented
  semantics.
-/

namespace MotionCore

/-! ### String primitives

Structural models of the Rust `str` operations the sources use.  They
work on `String.data` so that concrete evaluations reduce in the
kernel. -/

/-- ASCII whitespace test used by the `trim` model (`str::trim` strips
Unicode whitespace; the strings handled by this tool are ASCII). -/
def isWS (c : Char) : Bool :=
  c = ' ' || c = '\t' || c = '\n' || c = '\r'

/-- Characters of `str::trim`: drop whitespace from both ends. -/
def trimChars (l : List Char) : List Char :=
  ((l.dropWhile isWS).reverse.dropWhile isWS).reverse

/-- Model of `str::trim`. -/
def strTrim (s : String) : String := String.mk (trimChars s.data)

/-- Model of `str::starts_with`. -/
def strStartsWith (s p : String) : Bool := p.data.isPrefixOf s.data

/-- Split a character list at every occurrence of the character `c`
(the single-character case of `str::split`). -/
def splitChar (c : Char) : List Char → List (List Char)
  | [] => [[]]
  | x :: xs =>
    let r := splitChar c xs
    if x = c then [] :: r
    else
      match r with
      | [] => [[x]]
      | y :: ys => (x :: y) :: ys

/-- Split a string on a single-character separator, as
`str::split(char)` / `str::splitOn` for a one-character pattern. -/
def strSplitChar (c : Char) (s : String) : List String :=
  (splitChar c s.data).map String.mk

/-- First-occurrence split of a character list around the pattern
`pat`, returning the parts before and after it. -/
def splitFirstAux (pat : List Char) : List Char → Option (List Char × List Char)
  | [] => none
  | c :: rest =>
    if pat.isPrefixOf (c :: rest) then some ([], (c :: rest).drop pat.length)
    else
      match splitFirstAux pat rest with
      | none => none
      | some (a, b) => some (c :: a, b)

/-- Model of `str::split_once`: split at the first occurrence of `sep`,
returning the substrings before and after it. -/
def splitOnce (s sep : String) : Option (String × String) :=
  match splitFirstAux sep.data s.data with
  | none => none
  | some (a, b) => some (String.mk a, String.mk b)

/-- Model of `str::strip_prefix`, returning the remainder when `p` is a
prefix of `s`. -/
def stripPre (s p : String) : Option String :=
  if p.data.isPrefixOf s.data then some (String.mk (s.data.drop p.data.length))
  else none

/-- Model of `str::trim_start_matches(c)`: remove every leading
occurrence of the character `c`. -/
def trimStartMatchesChar (c : Char) (s : String) : String :=
  String.mk (s.data.dropWhile (fun x => x = c))

/-- Worker for `str::trim_end_matches`: on the reversed list, strip
the reversed pattern as often as it is a prefix.  The fuel argument
(seeded with the list length, which bounds the number of strips for a
non-empty pattern) keeps the recursion structural. -/
def trimEndRevFuel (patRev : List Char) : Nat → List Char → List Char
  | 0, l => l
  | _ + 1, [] => []
  | fuel + 1, c :: rest =>
    if patRev ≠ [] ∧ patRev.isPrefixOf (c :: rest) then
      trimEndRevFuel patRev fuel ((c :: rest).drop patRev.length)
    else c :: rest

/-- Remove the suffix `pat` from `l` as often as it occurs (characters
of `str::trim_end_matches(pat)`). -/
def trimEndRev (patRev l : List Char) : List Char :=
  trimEndRevFuel patRev l.length l

/-- Model of `str::trim_end_matches(pat)` for a non-empty pattern. -/
def trimEndMatches (s pat : String) : String :=
  String.mk ((trimEndRev pat.data.reverse s.data.reverse).reverse)

/-- Concatenation of the string list `parts` with separator `sep`
(model of `[..].join(sep)` / `String.intercalate`). -/
def joinSep (sep : String) : List String → String
  | [] => ""
  | [x] => x
  | x :: y :: rest => x ++ sep ++ joinSep sep (y :: rest)

/-- Strict byte-wise order on strings (Rust's `Ord for String`),
modelled as code-point lexicographic order, which agrees with UTF-8
byte order. -/
def strLt (a b : String) : Prop := a.data < b.data

instance : DecidablePred fun p : String × String => strLt p.1 p.2 :=
  fun p => inferInstanceAs (Decidable (p.1.data < p.2.data))

instance (a b : String) : Decidable (strLt a b) :=
  inferInstanceAs (Decidable (a.data < b.data))

theorem strLt_irrefl (a : String) : ¬ strLt a a := lt_irrefl a.data

theorem strLt_trans {a b c : String} (h1 : strLt a b) (h2 : strLt b c) :
    strLt a c := lt_trans h1 h2

theorem strLt_asymm {a b : String} (h : strLt a b) : ¬ strLt b a :=
  lt_asymm h

theorem strLt_connex {a b : String} (h1 : ¬ strLt a b) (h2 : ¬ strLt b a) :
    a = b := by
  rcases lt_trichotomy a.data b.data with h | h | h
  · exact absurd h h1
  · calc a = String.mk a.data := rfl
      _ = String.mk b.data := by rw [h]
      _ = b := rfl
  · exact absurd h h2

theorem strLt_ne {a b : String} (h : strLt a b) : a ≠ b := by
  intro he; subst he; exact strLt_irrefl a h

/-! ### Paths and the Path Sanitizer -/

/-- A parsed path component, mirroring `std::path::Component`.  The
`drive` constructor stands for `Component::Prefix` (Windows drive
prefixes); the Unix-style string parser below never produces it. -/
inductive PComponent where
  | drive (s : String)
  | rootDir
  | curDir
  | parentDir
  | normal (s : String)
deriving DecidableEq, Repr

/-- Classification of one `/`-separated segment, mirroring how
`Path::components` treats non-leading segments on Unix: empty and `.`
segments are dropped, `..` is a parent-directory component. -/
def segToComp (t : String) : Option PComponent :=
  if t = "." then none
  else if t = ".." then some PComponent.parentDir
  else some (PComponent.normal t)

/-- Model of `Path::new(s).components()` on Unix: a leading `/` yields
`RootDir`, a leading `.` (with no root) yields `CurDir`, empty and
non-leading `.` segments are dropped, `..` is `ParentDir`, and
everything else is a `Normal` segment. -/
def parsePath (s : String) : List PComponent :=
  let segs := (strSplitChar '/' s).filter (fun t => t ≠ "")
  if strStartsWith s "/" then
    PComponent.rootDir :: segs.filterMap segToComp
  else
    match segs with
    | [] => []
    | t :: rest =>
      (if t = "." then [PComponent.curDir] else (segToComp t).toList)
        ++ rest.filterMap segToComp

/-- `sanitize_relative_path` from `crates/core/src/paths.rs`: keep only
the `Normal` components of the parsed path, in order; `CurDir`,
`ParentDir`, `RootDir` and prefixes are all skipped.  The result is the
list of retained named segments. -/
def sanitize_relative_path (path : String) : List String :=
  (parsePath path).filterMap fun c =>
    match c with
    | PComponent.normal seg => some seg
    | _ => none

/-- `workspace_path` from `crates/core/src/paths.rs`: sanitize the
configured relative path and join it under the workspace root; an empty
sanitized result yields the root itself. -/
def workspace_path (workspace_root : List PComponent) (configured : String) :
    List PComponent :=
  let relative := sanitize_relative_path configured
  if relative.isEmpty then workspace_root
  else workspace_root ++ relative.map PComponent.normal

/-- One alias entry of the workspace configuration
(`crates/core/src/config.rs`, struct `AliasEntry`): a filesystem path
and an import path. -/
structure AliasEntry where
  filesystem : String
  importPath : String
deriving DecidableEq, Repr

/-- The alias table of the configuration (`config.rs`, struct
`Aliases`).  The `assets` entry is referenced by
`resolve_component_destination` and `resolve_destination` in the
source; its declaration is not part of the `Aliases` struct in the
`config.rs` snapshot, so it is modelled as one more `AliasEntry` field
(the spec lists assets among the alias directories). -/
structure Aliases where
  components : AliasEntry
  helpers : AliasEntry
  utils : AliasEntry
  assets : AliasEntry
deriving DecidableEq, Repr

/-- Barrel-export configuration entry (`config.rs`, struct
`ExportEntry`); only the `barrel` path is consulted by the modelled
code. -/
structure ExportEntry where
  barrel : String
deriving DecidableEq, Repr

/-- The `exports` section of the configuration (`config.rs`, struct
`Exports`). -/
structure Exports where
  components : ExportEntry
deriving DecidableEq, Repr

/-- The workspace configuration (`config.rs`, struct `Config`),
restricted to the fields the install pipeline reads. -/
structure Config where
  aliases : Aliases
  exports : Exports
deriving DecidableEq, Repr

/-- A component file record from the registry catalog
(`crates/core/src/registry.rs`, struct `ComponentFileRecord`). -/
structure ComponentFileRecord where
  path : String
  target : Option String
  kind : Option String
  typeExports : List String
deriving DecidableEq, Repr

/-- `strip_category` (identical in `components.rs` and
`commands/add.rs`): drop a leading `components/`, `helpers/`, `utils/`
or `assets/` category segment from a registry path. -/
def strip_category (path : String) : String :=
  match splitOnce path "/" with
  | some (first, rest) =>
    if first = "components" ∨ first = "helpers" ∨ first = "utils" ∨ first = "assets"
    then rest else path
  | none => path

/-- The alias directory chosen for a file's `target` tag — the shared
`match file.target.as_deref()` of `resolve_component_destination`
(`components.rs`) and `resolve_destination` (`commands/add.rs`). -/
def baseAliasFor (config : Config) (target : Option String) : String :=
  match target with
  | some "helper" => config.aliases.helpers.filesystem
  | some "helpers" => config.aliases.helpers.filesystem
  | some "utils" => config.aliases.utils.filesystem
  | some "asset" => config.aliases.assets.filesystem
  | some "assets" => config.aliases.assets.filesystem
  | some "root" => ""
  | _ => config.aliases.components.filesystem

/-- `resolve_component_destination` from
`crates/core/src/components.rs`: strip the category, sanitize the
remainder, pick the alias base for the file's target, resolve the base
under the workspace root, and join the sanitized segments. -/
def resolve_component_destination (workspace_root : List PComponent)
    (config : Config) (file : ComponentFileRecord) : List PComponent :=
  let relative := strip_category file.path
  let sanitized := sanitize_relative_path relative
  let base := baseAliasFor config file.target
  let base_path := workspace_path workspace_root base
  base_path ++ sanitized.map PComponent.normal

/-- `PathBuf::push`/`Path::join`: an absolute right-hand side replaces
the left-hand side; otherwise the components are appended. -/
def pathJoin (p q : List PComponent) : List PComponent :=
  match q with
  | PComponent.rootDir :: _ => q
  | PComponent.drive _ :: _ => q
  | _ => p ++ q

/-- `resolve_destination` from `crates/cli/src/commands/add.rs`: the
CLI command's own destination resolution.  Unlike the core version it
does not sanitize — the category-stripped registry path is joined
as-is under the alias base. -/
def resolve_destination (workspace_root : List PComponent)
    (config : Config) (file : ComponentFileRecord) : List PComponent :=
  let relative := strip_category file.path
  let sanitized := parsePath relative
  let base := baseAliasFor config file.target
  if base = "" then pathJoin workspace_root sanitized
  else pathJoin (pathJoin workspace_root (parsePath base)) sanitized

/-- Lexical resolution of a path: resolve `..` against the preceding
named segment and drop `.`, keeping the root marker.  Used to state
when a destination "resolves outside the workspace root". -/
def lexicalResolve (p : List PComponent) : List PComponent :=
  let body := p.foldl
    (fun (acc : List String) c =>
      match c with
      | PComponent.normal s => acc ++ [s]
      | PComponent.parentDir => acc.dropLast
      | _ => acc) []
  match p with
  | PComponent.rootDir :: _ => PComponent.rootDir :: body.map PComponent.normal
  | _ => body.map PComponent.normal

/-- Every destination computed by the core resolver consists of the
workspace root followed by named segments only — no parent-directory
component can appear after the root. -/
theorem resolve_component_destination_shape (workspace_root : List PComponent)
    (config : Config) (file : ComponentFileRecord) :
    ∃ segs : List String,
      resolve_component_destination workspace_root config file =
        workspace_root ++ segs.map PComponent.normal := by
  unfold resolve_component_destination workspace_path
  dsimp only
  by_cases h :
      (sanitize_relative_path (baseAliasFor config file.target)).isEmpty
  · exact ⟨sanitize_relative_path (strip_category file.path), by simp [h]⟩
  · exact ⟨sanitize_relative_path (baseAliasFor config file.target) ++
      sanitize_relative_path (strip_category file.path), by simp [h]⟩

/-- Workspace root `/workspace` used in the concrete path-traversal
evaluation. -/
def demoRoot : List PComponent :=
  [PComponent.rootDir, PComponent.normal "workspace"]

/-- The default configuration values of `config.rs` (`Config::default`),
with the assets alias placed under the components directory as in the
repository's tests. -/
def demoConfig : Config :=
  { aliases :=
      { components := ⟨"src/lib/motion-core", "$lib/motion-core"⟩
        helpers := ⟨"src/lib/motion-core/helpers", "$lib/motion-core/helpers"⟩
        utils := ⟨"src/lib/motion-core/utils", "$lib/motion-core/utils"⟩
        assets := ⟨"src/lib/motion-core/assets", "$lib/motion-core/assets"⟩ }
    exports := { components := ⟨"src/lib/motion-core/index.ts"⟩ } }

/-- A registry file record carrying a path-traversal payload. -/
def traversalFile : ComponentFileRecord :=
  { path := "components/../../../../etc/passwd"
    target := none
    kind := none
    typeExports := [] }

/-- C1: the CLI command's destination resolver (`resolve_destination`
in `crates/cli/src/commands/add.rs`) does not sanitize: on the
traversal payload `components/../../../../etc/passwd` it returns a
destination that still contains parent-directory components and
lexically resolves to `/etc/passwd`, outside the `/workspace` root —
whereas the core resolver (`resolve_component_destination`), which the
claim describes, keeps the destination inside the root with only named
segments. -/
theorem C1_cli_resolver_escapes_root :
    PComponent.parentDir ∈ resolve_destination demoRoot demoConfig traversalFile
    ∧ lexicalResolve (resolve_destination demoRoot demoConfig traversalFile) =
        [PComponent.rootDir, PComponent.normal "etc", PComponent.normal "passwd"]
    ∧ resolve_component_destination demoRoot demoConfig traversalFile =
        demoRoot ++ [PComponent.normal "src", PComponent.normal "lib",
          PComponent.normal "motion-core", PComponent.normal "etc",
          PComponent.normal "passwd"] := by
  refine ⟨?_, ?_, ?_⟩ <;> decide

/-! ### Catalog records and the install order -/

/-- A catalog component record (`registry.rs`, struct
`ComponentRecord`), restricted to the fields the install pipeline
reads.  Dependency maps are association lists. -/
structure ComponentRecord where
  name : String
  files : List ComponentFileRecord
  dependencies : List (String × String)
  devDependencies : List (String × String)
  internalDependencies : List String
deriving DecidableEq, Repr

/-- `HashMap::get` over the slug-keyed component map, modelled on an
association list (slugs are unique catalog keys). -/
def lookupSlug (catalog : List (String × ComponentRecord)) (slug : String) :
    Option ComponentRecord :=
  match catalog.find? (fun e => e.1 == slug) with
  | some e => some e.2
  | none => none

/-- The declared internal dependencies of a slug (empty when the slug
is absent, mirroring the source's `if let Some(record)` guard). -/
def internalDeps (catalog : List (String × ComponentRecord)) (slug : String) :
    List String :=
  match lookupSlug catalog slug with
  | some r => r.internalDependencies
  | none => []

/-- Ordered insertion into a strictly sorted list (the shape of a
`BTreeSet<String>`'s contents). -/
def sortedIns : List String → String → List String
  | [], s => [s]
  | x :: xs, s => if strLt s x then s :: x :: xs else x :: sortedIns xs s

/-- `BTreeSet::insert`: returns the updated set and whether the value
was newly inserted (`true` iff it was not already present). -/
def btreeInsert (l : List String) (s : String) : List String × Bool :=
  if l.contains s then (l, false) else (sortedIns l s, true)

theorem mem_sortedIns {a s : String} : ∀ {l : List String},
    a ∈ sortedIns l s ↔ a = s ∨ a ∈ l := by
  intro l
  induction l with
  | nil => simp [sortedIns]
  | cons x xs ih =>
    by_cases h : strLt s x
    · simp [sortedIns, h]
    · simp only [sortedIns, if_neg h, List.mem_cons, ih]
      tauto

theorem sortedIns_pairwise {s : String} : ∀ {l : List String},
    List.Pairwise strLt l → s ∉ l → List.Pairwise strLt (sortedIns l s) := by
  intro l
  induction l with
  | nil => intro _ _; simp [sortedIns]
  | cons x xs ih =>
    intro hp hn
    rcases List.pairwise_cons.mp hp with ⟨hx, hxs⟩
    by_cases h : strLt s x
    · rw [sortedIns, if_pos h]
      refine List.pairwise_cons.mpr ⟨?_, hp⟩
      intro b hb
      rcases List.mem_cons.mp hb with rfl | hb
      · exact h
      · exact strLt_trans h (hx b hb)
    · have hne : s ≠ x := fun he => hn (he ▸ List.mem_cons_self x xs)
      have hxls : strLt x s := by
        by_contra hxs'
        exact hne (strLt_connex h hxs')
      rw [sortedIns, if_neg h]
      refine List.pairwise_cons.mpr
        ⟨?_, ih hxs (fun hm => hn (List.mem_cons_of_mem x hm))⟩
      intro b hb
      rcases mem_sortedIns.mp hb with rfl | hb
      · exact hxls
      · exact hx b hb

theorem contains_iff_mem {l : List String} {a : String} :
    l.contains a = true ↔ a ∈ l := by
  simp [List.contains]

theorem contains_false_iff {l : List String} {a : String} :
    l.contains a = false ↔ a ∉ l := by
  rw [← contains_iff_mem]
  cases h : l.contains a <;> simp

theorem mem_btreeInsert {l : List String} {s a : String} :
    a ∈ (btreeInsert l s).1 ↔ a = s ∨ a ∈ l := by
  rw [btreeInsert]
  by_cases h : l.contains s = true
  · have hm : s ∈ l := contains_iff_mem.mp h
    rw [if_pos h]
    constructor
    · exact Or.inr
    · rintro (rfl | ha)
      · exact hm
      · exact ha
  · rw [if_neg h]
    exact mem_sortedIns

theorem btreeInsert_snd_true {l : List String} {s : String}
    (h : (btreeInsert l s).2 = true) : s ∉ l := by
  rw [btreeInsert] at h
  by_cases hc : l.contains s = true
  · rw [if_pos hc] at h; cases h
  · exact fun hm => hc (contains_iff_mem.mpr hm)

theorem btreeInsert_snd_false {l : List String} {s : String}
    (h : (btreeInsert l s).2 = false) : s ∈ l ∧ (btreeInsert l s).1 = l := by
  rw [btreeInsert] at h ⊢
  by_cases hc : l.contains s = true
  · exact ⟨contains_iff_mem.mp hc, by rw [if_pos hc]⟩
  · rw [if_neg hc] at h; cases h

theorem btreeInsert_pairwise {l : List String} {s : String}
    (hp : List.Pairwise strLt l) : List.Pairwise strLt (btreeInsert l s).1 := by
  rw [btreeInsert]
  by_cases hc : l.contains s = true
  · rw [if_pos hc]; exact hp
  · rw [if_neg hc]
    exact sortedIns_pairwise hp (fun hm => hc (contains_iff_mem.mpr hm))

/-- Number of catalog keys not yet in the resolved set — the
termination measure of the worklist traversal. -/
def unresolvedCount (catalog : List (String × ComponentRecord))
    (resolved : List String) : Nat :=
  ((catalog.map Prod.fst).filter (fun k => ! resolved.contains k)).length

theorem filter_length_mono {α : Type} (p q : α → Bool)
    (himp : ∀ a, q a = true → p a = true) :
    ∀ l : List α, (l.filter q).length ≤ (l.filter p).length := by
  intro l
  induction l with
  | nil => simp
  | cons x xs ih =>
    rw [List.filter_cons, List.filter_cons]
    by_cases hq : q x = true
    · rw [if_pos hq, if_pos (himp x hq)]
      simpa using ih
    · rw [if_neg hq]
      by_cases hp : p x = true
      · rw [if_pos hp]
        exact Nat.le_succ_of_le ih
      · rw [if_neg hp]
        exact ih

theorem filter_length_lt {α : Type} (p q : α → Bool) {l : List α}
    (himp : ∀ a, q a = true → p a = true) {a₀ : α} (ha : a₀ ∈ l)
    (hp : p a₀ = true) (hq : q a₀ = false) :
    (l.filter q).length < (l.filter p).length := by
  induction l with
  | nil => cases ha
  | cons x xs ih =>
    rw [List.filter_cons, List.filter_cons]
    rcases List.mem_cons.mp ha with rfl | hmem
    · rw [if_neg (by rw [hq]; exact Bool.false_ne_true), if_pos hp]
      exact Nat.lt_succ_of_le (filter_length_mono p q himp xs)
    · by_cases hqx : q x = true
      · rw [if_pos hqx, if_pos (himp x hqx)]
        simpa using ih hmem
      · rw [if_neg hqx]
        by_cases hpx : p x = true
        · rw [if_pos hpx]
          exact Nat.lt_succ_of_lt (ih hmem)
        · rw [if_neg hpx]
          exact ih hmem

theorem unresolvedCount_lt (catalog : List (String × ComponentRecord))
    {resolved resolved' : List String} {slug : String}
    (hsub : ∀ k, k ∈ resolved → k ∈ resolved')
    (hnew : slug ∉ resolved) (hnew' : slug ∈ resolved')
    (hkey : slug ∈ catalog.map Prod.fst) :
    unresolvedCount catalog resolved' < unresolvedCount catalog resolved := by
  refine filter_length_lt _ _ ?_ hkey ?_ ?_
  · intro a haq
    by_cases hc : resolved.contains a = true
    · have hm : a ∈ resolved' := hsub a (contains_iff_mem.mp hc)
      have hx : resolved'.contains a = true := contains_iff_mem.mpr hm
      rw [hx] at haq
      cases haq
    · show (! resolved.contains a) = true
      rw [Bool.eq_false_iff.mpr hc]; rfl
  · show (! resolved.contains slug) = true
    rw [contains_false_iff.mpr hnew]; rfl
  · show (! resolved'.contains slug) = false
    rw [contains_iff_mem.mpr hnew']; rfl

/-- The push of not-yet-resolved internal dependencies onto the work
stack — the inner `for dep in &record.internal_dependencies` loop of
`resolve_install_order`. -/
def pushDeps (resolvedNow deps rest : List String) : List String :=
  deps.foldl (fun q dep => if resolvedNow.contains dep then q else dep :: q) rest

theorem pushDeps_cons (resolvedNow : List String) (d : String)
    (ds rest : List String) :
    pushDeps resolvedNow (d :: ds) rest =
      pushDeps resolvedNow ds
        (if resolvedNow.contains d = true then rest else d :: rest) := by
  rw [pushDeps, pushDeps, List.foldl_cons]

theorem sub_pushDeps {resolvedNow : List String} : ∀ {deps rest : List String},
    ∀ x ∈ rest, x ∈ pushDeps resolvedNow deps rest := by
  intro deps
  induction deps with
  | nil => intro rest x hx; exact hx
  | cons d ds ih =>
    intro rest x hx
    rw [pushDeps_cons]
    by_cases h : resolvedNow.contains d = true
    · rw [if_pos h]; exact ih x hx
    · rw [if_neg h]; exact ih x (List.mem_cons_of_mem d hx)

theorem pushDeps_sub {resolvedNow : List String} : ∀ {deps rest : List String},
    ∀ x ∈ pushDeps resolvedNow deps rest, x ∈ rest ∨ x ∈ deps := by
  intro deps
  induction deps with
  | nil => intro rest x hx; exact Or.inl hx
  | cons d ds ih =>
    intro rest x hx
    rw [pushDeps_cons] at hx
    by_cases h : resolvedNow.contains d = true
    · rw [if_pos h] at hx
      rcases ih x hx with hr | hd
      · exact Or.inl hr
      · exact Or.inr (List.mem_cons_of_mem d hd)
    · rw [if_neg h] at hx
      rcases ih x hx with hr | hd
      · rcases List.mem_cons.mp hr with he | hr
        · subst he
          exact Or.inr (List.mem_cons_self x ds)
        · exact Or.inl hr
      · exact Or.inr (List.mem_cons_of_mem d hd)

theorem mem_pushDeps_of {resolvedNow : List String} : ∀ {deps rest : List String}
    {d : String}, d ∈ deps → resolvedNow.contains d = false →
    d ∈ pushDeps resolvedNow deps rest := by
  intro deps
  induction deps with
  | nil => intro rest d hd; cases hd
  | cons e es ih =>
    intro rest d hd hc
    rw [pushDeps_cons]
    rcases List.mem_cons.mp hd with he | hd
    · subst he
      rw [if_neg (by rw [hc]; exact Bool.false_ne_true)]
      exact sub_pushDeps d (List.mem_cons_self d rest)
    · by_cases h : resolvedNow.contains e = true
      · rw [if_pos h]; exact ih hd hc
      · rw [if_neg h]; exact ih hd hc

/-- The worklist traversal of `resolve_install_order` (identical in
`crates/core/src/operations/add.rs` and
`crates/cli/src/commands/add.rs`): pop a slug from the stack, error if
it is not in the catalog, record it in the `BTreeSet`, and — when newly
inserted — push its not-yet-resolved internal dependencies.  The stack
is modelled head-first, so `Vec::pop` is head removal and the `for`
loop's pushes cons each dependency. -/
def installOrderLoop (catalog : List (String × ComponentRecord)) :
    List String → List String → Except String (List String)
  | resolved, [] => Except.ok resolved
  | resolved, slug :: rest =>
    if hfound : (lookupSlug catalog slug).isNone then
      Except.error ("component `" ++ slug ++ "` not found in registry")
    else
      if hins : (btreeInsert resolved slug).2 then
        installOrderLoop catalog (btreeInsert resolved slug).1
          (pushDeps (btreeInsert resolved slug).1 (internalDeps catalog slug) rest)
      else
        installOrderLoop catalog resolved rest
termination_by resolved queue => (unresolvedCount catalog resolved, queue.length)
decreasing_by
  · apply Prod.Lex.left
    refine unresolvedCount_lt catalog
      (fun k hk => mem_btreeInsert.mpr (Or.inr hk))
      (btreeInsert_snd_true hins)
      (mem_btreeInsert.mpr (Or.inl rfl)) ?_
    rcases hr : lookupSlug catalog slug with _ | r
    · rw [hr] at hfound; simp at hfound
    · unfold lookupSlug at hr
      rcases hf : (catalog.find? (fun e => e.1 == slug)) with _ | e
      · rw [hf] at hr; cases hr
      · have := List.find?_some hf
        have hmem := List.mem_of_find?_eq_some hf
        have : e.1 = slug := by simpa using this
        exact this ▸ List.mem_map_of_mem Prod.fst hmem
  · have heq : (btreeInsert resolved slug).1 = resolved :=
      (btreeInsert_snd_false (by simpa using hins)).2
    apply Prod.Lex.right
    simp

/-- `resolve_install_order` (`operations/add.rs` /
`commands/add.rs`): seed the stack with the requested slugs (Rust's
`Vec::pop` takes the last element, so the head-first stack is the
reversed request list) and run the traversal; the result is the
`BTreeSet`'s ascending contents. -/
def resolve_install_order (requested : List String)
    (catalog : List (String × ComponentRecord)) : Except String (List String) :=
  installOrderLoop catalog [] requested.reverse

theorem installOrderLoop_sorted (catalog : List (String × ComponentRecord)) :
    ∀ resolved queue, List.Pairwise strLt resolved →
      ∀ l, installOrderLoop catalog resolved queue = Except.ok l →
        List.Pairwise strLt l := by
  intro resolved queue
  induction resolved, queue using installOrderLoop.induct catalog with
  | case1 resolved =>
    intro hp l hl
    rw [installOrderLoop] at hl
    cases hl
    exact hp
  | case2 resolved slug rest hfound =>
    intro hp l hl
    rw [installOrderLoop, dif_pos hfound] at hl
    cases hl
  | case3 resolved slug rest hfound hins ih =>
    intro hp l hl
    rw [installOrderLoop, dif_neg hfound, dif_pos hins] at hl
    exact ih (btreeInsert_pairwise hp) l hl
  | case4 resolved slug rest hfound hins ih =>
    intro hp l hl
    rw [installOrderLoop, dif_neg hfound, dif_neg hins] at hl
    exact ih hp l hl

theorem installOrderLoop_closure (catalog : List (String × ComponentRecord))
    (C : List String)
    (hC1 : ∀ s ∈ C, (lookupSlug catalog s).isSome)
    (hC2 : ∀ s ∈ C, ∀ d ∈ internalDeps catalog s, d ∈ C) :
    ∀ resolved queue,
      (∀ s ∈ resolved, s ∈ C) → (∀ s ∈ queue, s ∈ C) →
      (∀ s ∈ resolved, ∀ d ∈ internalDeps catalog s, d ∈ resolved ∨ d ∈ queue) →
      ∃ l, installOrderLoop catalog resolved queue = Except.ok l ∧
        (∀ s ∈ resolved, s ∈ l) ∧ (∀ s ∈ queue, s ∈ l) ∧
        (∀ s ∈ l, ∀ d ∈ internalDeps catalog s, d ∈ l) ∧ (∀ s ∈ l, s ∈ C) := by
  intro resolved queue
  induction resolved, queue using installOrderLoop.induct catalog with
  | case1 resolved =>
    intro hres _ hinv
    refine ⟨resolved, by rw [installOrderLoop], fun s hs => hs, ?_, ?_, hres⟩
    · intro s hs; cases hs
    · intro s hs d hd
      rcases hinv s hs d hd with h | h
      · exact h
      · cases h
  | case2 resolved slug rest hfound =>
    intro _ hq _
    have hs : (lookupSlug catalog slug).isSome :=
      hC1 slug (hq slug (List.mem_cons_self slug rest))
    rw [Option.isNone_iff_eq_none] at hfound
    rw [hfound] at hs
    cases hs
  | case3 resolved slug rest hfound hins ih =>
    intro hres hq hinv
    have hslugC : slug ∈ C := hq slug (List.mem_cons_self slug rest)
    have hres' : ∀ s ∈ (btreeInsert resolved slug).1, s ∈ C := by
      intro s hs
      rcases mem_btreeInsert.mp hs with rfl | hs
      · exact hslugC
      · exact hres s hs
    have hq' : ∀ s ∈ pushDeps (btreeInsert resolved slug).1
        (internalDeps catalog slug) rest, s ∈ C := by
      intro s hs
      rcases pushDeps_sub s hs with h | h
      · exact hq s (List.mem_cons_of_mem slug h)
      · exact hC2 slug hslugC s h
    have hinv' : ∀ s ∈ (btreeInsert resolved slug).1,
        ∀ d ∈ internalDeps catalog s,
          d ∈ (btreeInsert resolved slug).1 ∨
          d ∈ pushDeps (btreeInsert resolved slug).1 (internalDeps catalog slug) rest := by
      intro s hs d hd
      rcases mem_btreeInsert.mp hs with rfl | hs
      · by_cases hc : (btreeInsert resolved s).1.contains d = true
        · exact Or.inl (contains_iff_mem.mp hc)
        · exact Or.inr (mem_pushDeps_of hd (Bool.eq_false_iff.mpr hc))
      · rcases hinv s hs d hd with h | h
        · exact Or.inl (mem_btreeInsert.mpr (Or.inr h))
        · rcases List.mem_cons.mp h with he | h
          · exact Or.inl (mem_btreeInsert.mpr (Or.inl he))
          · exact Or.inr (sub_pushDeps d h)
    rcases ih hres' hq' hinv' with ⟨l, hok, hresl, hql, hcl, hCl⟩
    refine ⟨l, ?_, ?_, ?_, hcl, hCl⟩
    · rw [installOrderLoop, dif_neg hfound, dif_pos hins]
      exact hok
    · intro s hs
      exact hresl s (mem_btreeInsert.mpr (Or.inr hs))
    · intro s hs
      rcases List.mem_cons.mp hs with he | hs
      · exact hresl s (mem_btreeInsert.mpr (Or.inl he))
      · exact hql s (sub_pushDeps s hs)
  | case4 resolved slug rest hfound hins ih =>
    intro hres hq hinv
    have hmem : slug ∈ resolved :=
      (btreeInsert_snd_false (by
        rcases Bool.eq_false_or_eq_true (btreeInsert resolved slug).2 with h | h
        · exact absurd h hins
        · exact h)).1
    have hq' : ∀ s ∈ rest, s ∈ C := fun s hs => hq s (List.mem_cons_of_mem slug hs)
    have hinv' : ∀ s ∈ resolved, ∀ d ∈ internalDeps catalog s,
        d ∈ resolved ∨ d ∈ rest := by
      intro s hs d hd
      rcases hinv s hs d hd with h | h
      · exact Or.inl h
      · rcases List.mem_cons.mp h with he | h
        · exact Or.inl (he ▸ hmem)
        · exact Or.inr h
    rcases ih hres hq' hinv' with ⟨l, hok, hresl, hql, hcl, hCl⟩
    refine ⟨l, ?_, hresl, ?_, hcl, hCl⟩
    · rw [installOrderLoop, dif_neg hfound, dif_neg hins]
      exact hok
    · intro s hs
      rcases List.mem_cons.mp hs with he | hs
      · exact he ▸ hresl slug hmem
      · exact hql s hs

/-- C2: for every catalog and request list whose transitive
internal-dependency closure is contained in a set `C` of catalog slugs,
`resolve_install_order` succeeds, its result contains every requested
slug at least once and every slug at most once, and the result is
transitively dependency-closed. -/
theorem C2_install_order_closure (catalog : List (String × ComponentRecord))
    (requested C : List String)
    (hreq : ∀ s ∈ requested, s ∈ C)
    (hC1 : ∀ s ∈ C, (lookupSlug catalog s).isSome)
    (hC2 : ∀ s ∈ C, ∀ d ∈ internalDeps catalog s, d ∈ C) :
    ∃ l, resolve_install_order requested catalog = Except.ok l ∧
      (∀ s ∈ requested, s ∈ l) ∧ l.Nodup ∧
      (∀ s ∈ l, ∀ d ∈ internalDeps catalog s, d ∈ l) := by
  rcases installOrderLoop_closure catalog C hC1 hC2 [] requested.reverse
      (by intro s hs; cases hs)
      (by intro s hs; exact hreq s (List.mem_reverse.mp hs))
      (by intro s hs; cases hs) with ⟨l, hok, _, hql, hcl, _⟩
  have hsorted : List.Pairwise strLt l :=
    installOrderLoop_sorted catalog [] requested.reverse (by constructor) l hok
  exact ⟨l, hok,
    fun s hs => hql s (List.mem_reverse.mpr hs),
    hsorted.imp (fun h => strLt_ne h), hcl⟩

theorem lookup_mem_keys {catalog : List (String × ComponentRecord)} {slug : String}
    (h : ¬ (lookupSlug catalog slug).isNone = true) :
    slug ∈ catalog.map Prod.fst := by
  rcases hf : (catalog.find? (fun e => e.1 == slug)) with _ | e
  · exfalso
    apply h
    rw [lookupSlug, hf]
    rfl
  · have hpe := List.find?_some hf
    have hmem := List.mem_of_find?_eq_some hf
    have he : e.1 = slug := by simpa using hpe
    exact he ▸ List.mem_map_of_mem Prod.fst hmem

/-- The depth-first traversal described by the specification's words:
the same worklist walk, but the visited set is kept as a list in
discovery order (each slug is appended when first visited) and the
final order is that discovery sequence. -/
def discoveryLoop (catalog : List (String × ComponentRecord)) :
    List String → List String → Except String (List String)
  | visited, [] => Except.ok visited
  | visited, slug :: rest =>
    if hfound : (lookupSlug catalog slug).isNone then
      Except.error ("component `" ++ slug ++ "` not found in registry")
    else
      if hv : visited.contains slug then discoveryLoop catalog visited rest
      else
        discoveryLoop catalog (visited ++ [slug])
          (pushDeps (visited ++ [slug]) (internalDeps catalog slug) rest)
termination_by visited queue => (unresolvedCount catalog visited, queue.length)
decreasing_by
  · apply Prod.Lex.right
    simp
  · apply Prod.Lex.left
    refine unresolvedCount_lt catalog
      (fun k hk => List.mem_append_left _ hk)
      (fun hm => hv (contains_iff_mem.mpr hm))
      (List.mem_append_right _ (List.mem_singleton.mpr rfl))
      (lookup_mem_keys hfound)

/-- The discovery order of the depth-first traversal seeded with the
requested slugs (stack modelled as in `resolve_install_order`). -/
def discovery_order (requested : List String)
    (catalog : List (String × ComponentRecord)) : Except String (List String) :=
  discoveryLoop catalog [] requested.reverse

theorem contains_congr {l1 l2 : List String} (h : ∀ s, s ∈ l1 ↔ s ∈ l2) :
    ∀ s, l1.contains s = l2.contains s := by
  intro s
  by_cases hc : l1.contains s = true
  · rw [hc, Eq.symm (contains_iff_mem.mpr ((h s).mp (contains_iff_mem.mp hc)))]
  · have h1 : l1.contains s = false := Bool.eq_false_iff.mpr hc
    have h2 : l2.contains s = false :=
      contains_false_iff.mpr (fun hm => (contains_false_iff.mp h1) ((h s).mpr hm))
    rw [h1, h2]

theorem pushDeps_congr {r1 r2 : List String}
    (h : ∀ s, r1.contains s = r2.contains s) :
    ∀ deps rest, pushDeps r1 deps rest = pushDeps r2 deps rest := by
  intro deps
  induction deps with
  | nil => intro rest; rfl
  | cons d ds ih =>
    intro rest
    rw [pushDeps_cons, pushDeps_cons, h d, ih]

theorem installOrderLoop_agree (catalog : List (String × ComponentRecord)) :
    ∀ resolved queue, ∀ visited : List String,
      (∀ s : String, s ∈ resolved ↔ s ∈ visited) →
      ∀ l, installOrderLoop catalog resolved queue = Except.ok l →
        ∃ d, discoveryLoop catalog visited queue = Except.ok d ∧
          (∀ s, s ∈ l ↔ s ∈ d) := by
  intro resolved queue
  induction resolved, queue using installOrderLoop.induct catalog with
  | case1 resolved =>
    intro visited hmem l hl
    rw [installOrderLoop] at hl
    cases hl
    exact ⟨visited, by rw [discoveryLoop], hmem⟩
  | case2 resolved slug rest hfound =>
    intro visited _ l hl
    rw [installOrderLoop, dif_pos hfound] at hl
    cases hl
  | case3 resolved slug rest hfound hins ih =>
    intro visited hmem l hl
    rw [installOrderLoop, dif_neg hfound, dif_pos hins] at hl
    have hnot : slug ∉ visited :=
      fun h => btreeInsert_snd_true hins ((hmem slug).mpr h)
    have hv : ¬ (visited.contains slug = true) :=
      fun h => hnot (contains_iff_mem.mp h)
    have hmem' : ∀ s, s ∈ (btreeInsert resolved slug).1 ↔ s ∈ visited ++ [slug] := by
      intro s
      rw [mem_btreeInsert, List.mem_append, List.mem_singleton]
      rw [hmem s]
      tauto
    have hpd : pushDeps (btreeInsert resolved slug).1 (internalDeps catalog slug) rest
        = pushDeps (visited ++ [slug]) (internalDeps catalog slug) rest :=
      pushDeps_congr (contains_congr hmem') _ _
    rcases ih (visited ++ [slug]) hmem' l hl with ⟨d, hd, hiff⟩
    refine ⟨d, ?_, hiff⟩
    rw [discoveryLoop, dif_neg hfound, dif_neg hv, ← hpd]
    exact hd
  | case4 resolved slug rest hfound hins ih =>
    intro visited hmem l hl
    rw [installOrderLoop, dif_neg hfound, dif_neg hins] at hl
    have hmemslug : slug ∈ resolved :=
      (btreeInsert_snd_false (by
        rcases Bool.eq_false_or_eq_true (btreeInsert resolved slug).2 with h | h
        · exact absurd h hins
        · exact h)).1
    have hv : visited.contains slug = true :=
      contains_iff_mem.mpr ((hmem slug).mp hmemslug)
    rcases ih visited hmem l hl with ⟨d, hd, hiff⟩
    refine ⟨d, ?_, hiff⟩
    rw [discoveryLoop, dif_neg hfound, dif_pos hv]
    exact hd

/-- A two-component catalog in which `b` depends on `a`. -/
def depCatalog : List (String × ComponentRecord) :=
  [("a", { name := "A", files := [], dependencies := [],
           devDependencies := [], internalDependencies := [] }),
   ("b", { name := "B", files := [], dependencies := [],
           devDependencies := [], internalDependencies := ["a"] })]

/-- C5 (counterexample): requesting `b`, whose dependency is `a`, the
depth-first traversal discovers `b` before `a`, but
`resolve_install_order` returns `["a", "b"]` — the `BTreeSet`'s sorted
order, not the discovery order. -/
theorem C5_counterexample_sorted_vs_discovery :
    resolve_install_order ["b"] depCatalog = Except.ok ["a", "b"]
    ∧ discovery_order ["b"] depCatalog = Except.ok ["b", "a"]
    ∧ (["a", "b"] : List String) ≠ ["b", "a"] := by
  refine ⟨?_, ?_, by decide⟩
  · simp [resolve_install_order, installOrderLoop, depCatalog, lookupSlug,
      internalDeps, btreeInsert, sortedIns, pushDeps, strLt]
    all_goals decide
  · simp [discovery_order, discoveryLoop, depCatalog, lookupSlug,
      internalDeps, pushDeps]

/-- C5 (amended): the install order returned by
`resolve_install_order` is the set of slugs first visited by the
depth-first traversal, listed in strictly ascending byte-wise order
(the `BTreeSet` iteration order), not in discovery order. -/
theorem C5_amended_sorted_order (catalog : List (String × ComponentRecord))
    (requested l : List String)
    (h : resolve_install_order requested catalog = Except.ok l) :
    List.Pairwise strLt l ∧
      ∃ d, discovery_order requested catalog = Except.ok d ∧
        (∀ s, s ∈ l ↔ s ∈ d) := by
  constructor
  · exact installOrderLoop_sorted catalog [] requested.reverse
      (by constructor) l h
  · exact installOrderLoop_agree catalog [] requested.reverse []
      (fun s => Iff.rfl) l h

/-- C5 (witness): the amended theorem applied to the concrete
two-component catalog. -/
theorem C5_amended_sorted_order_witness :
    List.Pairwise strLt ["a", "b"] ∧
      ∃ d, discovery_order ["b"] depCatalog = Except.ok d ∧
        (∀ s, s ∈ (["a", "b"] : List String) ↔ s ∈ d) :=
  C5_amended_sorted_order depCatalog ["b"] ["a", "b"]
    (by
      simp [resolve_install_order, installOrderLoop, depCatalog, lookupSlug,
        internalDeps, btreeInsert, sortedIns, pushDeps, strLt]
      all_goals decide)

/-- C2 (witness): the closure theorem applied to the concrete
two-component catalog with closure set `["a", "b"]`. -/
theorem C2_install_order_closure_witness :
    ∃ l, resolve_install_order ["b"] depCatalog = Except.ok l ∧
      (∀ s ∈ (["b"] : List String), s ∈ l) ∧ l.Nodup ∧
      (∀ s ∈ l, ∀ d ∈ internalDeps depCatalog s, d ∈ l) :=
  C2_install_order_closure depCatalog ["b"] ["a", "b"]
    (by decide) (by decide) (by decide)

/-! ### The Version Satisfaction Checker (`crates/cli/src/deps.rs`)

The `semver` crate is an external dependency; its `Version`,
`Comparator`, `Op`, `VersionReq::parse` and `VersionReq::matches` are
modelled here from that crate's documented semantics.  The parser
covers the common grammar subset the tool handles (op-prefixed numeric
versions, wildcard components, comma-separated comparator lists,
a bare `*`) and rejects prerelease/build metadata. -/

/-- `semver::Version`: major/minor/patch numbers and a prerelease tag
(the build-metadata field never influences comparison and is
omitted). -/
structure SemVersion where
  major : Nat
  minor : Nat
  patch : Nat
  pre : String
deriving DecidableEq, Repr

/-- `semver::Op`, the comparator operators. -/
inductive SemOp where
  | exact
  | greater
  | greaterEq
  | less
  | lessEq
  | tilde
  | caret
  | wildcard
deriving DecidableEq, Repr

/-- `semver::Comparator`. -/
structure Comparator where
  op : SemOp
  major : Nat
  minor : Option Nat
  patch : Option Nat
  pre : String
deriving DecidableEq, Repr

/-- `semver::VersionReq`: a conjunction of comparators.  A bare `*`
parses to the empty comparator list. -/
structure VersionReq where
  comparators : List Comparator
deriving DecidableEq, Repr

/-- Numeric prerelease identifier test (all digits, non-empty). -/
def isNumericIdent (l : List Char) : Bool :=
  decide (l ≠ []) && l.all Char.isDigit

/-- Digits to number. -/
def natOfDigits (l : List Char) : Nat :=
  l.foldl (fun n c => n * 10 + (c.toNat - 48)) 0

/-- SemVer precedence on single prerelease identifiers: numeric
identifiers compare numerically and are lower than alphanumeric ones;
alphanumeric ones compare in ASCII order. -/
def identLt (a b : List Char) : Bool :=
  if isNumericIdent a then
    if isNumericIdent b then decide (natOfDigits a < natOfDigits b) else true
  else if isNumericIdent b then false
  else decide (a < b)

/-- SemVer precedence on dot-separated identifier lists; a strict
prefix is lower. -/
def identListLt : List (List Char) → List (List Char) → Bool
  | [], [] => false
  | [], _ :: _ => true
  | _ :: _, [] => false
  | x :: xs, y :: ys => if x = y then identListLt xs ys else identLt x y

/-- Strict SemVer precedence on prerelease tags: the empty tag (a
release) is highest; non-empty tags compare by identifier lists. -/
def preLt (a b : String) : Bool :=
  if a = b then false
  else if a = "" then false
  else if b = "" then true
  else identListLt (splitChar '.' a.data) (splitChar '.' b.data)

/-- `ver.pre > cmp.pre` in the crate's matching code. -/
def preGt (a b : String) : Bool := preLt b a

/-- `ver.pre >= cmp.pre` in the crate's matching code. -/
def preGe (a b : String) : Bool := ! preLt a b

/-- `matches_exact` of the `semver` crate. -/
def matchesExact (cmp : Comparator) (ver : SemVersion) : Bool :=
  decide (ver.major = cmp.major)
  && (match cmp.minor with | none => true | some m => decide (ver.minor = m))
  && (match cmp.patch with | none => true | some p => decide (ver.patch = p))
  && decide (ver.pre = cmp.pre)

/-- `matches_greater` of the `semver` crate. -/
def matchesGreater (cmp : Comparator) (ver : SemVersion) : Bool :=
  if ver.major ≠ cmp.major then decide (ver.major > cmp.major)
  else
    match cmp.minor with
    | none => false
    | some minor =>
      if ver.minor ≠ minor then decide (ver.minor > minor)
      else
        match cmp.patch with
        | none => false
        | some patch =>
          if ver.patch ≠ patch then decide (ver.patch > patch)
          else preGt ver.pre cmp.pre

/-- `matches_less` of the `semver` crate. -/
def matchesLess (cmp : Comparator) (ver : SemVersion) : Bool :=
  if ver.major ≠ cmp.major then decide (ver.major < cmp.major)
  else
    match cmp.minor with
    | none => false
    | some minor =>
      if ver.minor ≠ minor then decide (ver.minor < minor)
      else
        match cmp.patch with
        | none => false
        | some patch =>
          if ver.patch ≠ patch then decide (ver.patch < patch)
          else preLt ver.pre cmp.pre

/-- `matches_tilde` of the `semver` crate. -/
def matchesTilde (cmp : Comparator) (ver : SemVersion) : Bool :=
  if ver.major ≠ cmp.major then false
  else if (match cmp.minor with
           | none => false
           | some minor => decide (ver.minor ≠ minor)) then false
  else
    match cmp.patch with
    | none => preGe ver.pre cmp.pre
    | some patch =>
      if ver.patch ≠ patch then decide (ver.patch > patch)
      else preGe ver.pre cmp.pre

/-- `matches_caret` of the `semver` crate. -/
def matchesCaret (cmp : Comparator) (ver : SemVersion) : Bool :=
  if ver.major ≠ cmp.major then false
  else
    match cmp.minor with
    | none => true
    | some minor =>
      match cmp.patch with
      | none =>
        if cmp.major > 0 then decide (ver.minor ≥ minor)
        else decide (ver.minor = minor)
      | some patch =>
        if cmp.major > 0 then
          if ver.minor ≠ minor then decide (ver.minor > minor)
          else if ver.patch ≠ patch then decide (ver.patch > patch)
          else preGe ver.pre cmp.pre
        else if minor > 0 then
          if ver.minor ≠ minor then false
          else if ver.patch ≠ patch then decide (ver.patch > patch)
          else preGe ver.pre cmp.pre
        else if ver.minor ≠ minor || ver.patch ≠ patch then false
        else preGe ver.pre cmp.pre

/-- `matches_impl` of the `semver` crate. -/
def matchesImpl (cmp : Comparator) (ver : SemVersion) : Bool :=
  match cmp.op with
  | SemOp.exact => matchesExact cmp ver
  | SemOp.wildcard => matchesExact cmp ver
  | SemOp.greater => matchesGreater cmp ver
  | SemOp.greaterEq => matchesExact cmp ver || matchesGreater cmp ver
  | SemOp.less => matchesLess cmp ver
  | SemOp.lessEq => matchesExact cmp ver || matchesLess cmp ver
  | SemOp.tilde => matchesTilde cmp ver
  | SemOp.caret => matchesCaret cmp ver

/-- `pre_is_compatible` of the `semver` crate. -/
def preIsCompatible (cmp : Comparator) (ver : SemVersion) : Bool :=
  decide (cmp.major = ver.major) && decide (cmp.minor = some ver.minor)
    && decide (cmp.patch = some ver.patch) && decide (cmp.pre ≠ "")

/-- `VersionReq::matches` of the `semver` crate: every comparator must
match, and a prerelease version additionally needs one comparator
anchored at the same triple with a non-empty prerelease. -/
def reqMatches (req : VersionReq) (ver : SemVersion) : Bool :=
  req.comparators.all (fun c => matchesImpl c ver)
    && (decide (ver.pre = "") || req.comparators.any (fun c => preIsCompatible c ver))

/-- Version-number parse: digits only, no redundant leading zero. -/
def parseNat (l : List Char) : Option Nat :=
  if decide (l ≠ []) && l.all Char.isDigit
      && (decide (l.length = 1) || decide (l.head? ≠ some '0')) then
    some (natOfDigits l)
  else none

/-- Wildcard version component (`*`, `x` or `X`). -/
def isWildcardSeg (l : List Char) : Bool :=
  l = ['*'] || l = ['x'] || l = ['X']

/-- One comparator of the requirement grammar: an optional operator
(`=, >, >=, <, <=, ~, ^`; the default operator is caret), then a
`major[.minor[.patch]]` version whose minor or patch may be a wildcard
when no explicit operator was given.  Prerelease/build metadata is
outside the modelled subset and fails the parse. -/
def parseComparator (s : String) : Option Comparator :=
  let l := trimChars s.data
  if l.contains '-' || l.contains '+' then none
  else
    let opTag : Option SemOp × List Char :=
      if ['>', '='].isPrefixOf l then (some SemOp.greaterEq, l.drop 2)
      else if ['<', '='].isPrefixOf l then (some SemOp.lessEq, l.drop 2)
      else if ['>'].isPrefixOf l then (some SemOp.greater, l.drop 1)
      else if ['<'].isPrefixOf l then (some SemOp.less, l.drop 1)
      else if ['='].isPrefixOf l then (some SemOp.exact, l.drop 1)
      else if ['~'].isPrefixOf l then (some SemOp.tilde, l.drop 1)
      else if ['^'].isPrefixOf l then (some SemOp.caret, l.drop 1)
      else (none, l)
    let rest := opTag.2.dropWhile (fun c => c = ' ')
    match splitChar '.' rest with
    | [mj] =>
      match parseNat mj with
      | some major =>
        some { op := opTag.1.getD SemOp.caret, major := major,
               minor := none, patch := none, pre := "" }
      | none => none
    | [mj, mi] =>
      match parseNat mj with
      | some major =>
        if isWildcardSeg mi then
          match opTag.1 with
          | none => some { op := SemOp.wildcard, major := major,
                           minor := none, patch := none, pre := "" }
          | some _ => none
        else
          match parseNat mi with
          | some minor =>
            some { op := opTag.1.getD SemOp.caret, major := major,
                   minor := some minor, patch := none, pre := "" }
          | none => none
      | none => none
    | [mj, mi, pt] =>
      match parseNat mj, parseNat mi with
      | some major, some minor =>
        if isWildcardSeg pt then
          match opTag.1 with
          | none => some { op := SemOp.wildcard, major := major,
                           minor := some minor, patch := none, pre := "" }
          | some _ => none
        else
          match parseNat pt with
          | some patch =>
            some { op := opTag.1.getD SemOp.caret, major := major,
                   minor := some minor, patch := some patch, pre := "" }
          | none => none
      | _, _ => none
    | _ => none

/-- `VersionReq::parse` over the modelled grammar: a bare `*` is the
empty requirement; otherwise a comma-separated comparator list. -/
def parseVersionReq (s : String) : Option VersionReq :=
  let t := trimChars s.data
  if t = ['*'] then some ⟨[]⟩
  else
    match (splitChar ',' t).mapM (fun p => parseComparator (String.mk p)) with
    | some cs => some ⟨cs⟩
    | none => none

/-- `version_from_comparator` from `crates/cli/src/deps.rs`: the
comparator's version with missing minor/patch defaulting to 0. -/
def version_from_comparator (comparator : Comparator) : SemVersion :=
  { major := comparator.major
    minor := comparator.minor.getD 0
    patch := comparator.patch.getD 0
    pre := comparator.pre }

/-- `increment_patch` from `deps.rs` (`saturating_add(1)` on `u64`,
modelled on `Nat`). -/
def increment_patch (version : SemVersion) : SemVersion :=
  { version with patch := version.patch + 1 }

/-- The comparator scan inside `minimal_version` (`deps.rs`): the
first exact/wildcard/tilde/caret/greater-or-equal comparator yields its
version; a strictly-greater comparator yields its version with the
patch incremented; less/less-or-equal comparators are skipped. -/
def minimalVersionFromReq : List Comparator → Option SemVersion
  | [] => none
  | c :: rest =>
    match c.op with
    | SemOp.exact => some (version_from_comparator c)
    | SemOp.wildcard => some (version_from_comparator c)
    | SemOp.tilde => some (version_from_comparator c)
    | SemOp.caret => some (version_from_comparator c)
    | SemOp.greaterEq => some (version_from_comparator c)
    | SemOp.greater => some (increment_patch (version_from_comparator c))
    | SemOp.less => minimalVersionFromReq rest
    | SemOp.lessEq => minimalVersionFromReq rest

/-- `minimal_version` from `deps.rs`: parse the requirement; an empty
comparator list yields `0.0.0`; otherwise scan for the first anchoring
comparator. -/
def minimal_version (spec : String) : Option SemVersion :=
  match parseVersionReq spec with
  | none => none
  | some req =>
    if req.comparators.isEmpty then some ⟨0, 0, 0, ""⟩
    else minimalVersionFromReq req.comparators

/-- `spec_satisfies` from `crates/cli/src/deps.rs`: absent installed
specifier fails; both sides are trimmed; emptiness fails; exact string
equality passes; otherwise the installed side parses as a range and
must accept the required side's minimal version, failing on any parse
failure. -/
def spec_satisfies (installed : Option String) (required : String) : Bool :=
  match installed with
  | none => false
  | some value =>
    let installedT := strTrim value
    let requiredT := strTrim required
    if installedT.data.isEmpty || requiredT.data.isEmpty then false
    else if installedT = requiredT then true
    else
      match parseVersionReq installedT with
      | none => false
      | some installedReq =>
        match minimal_version requiredT with
        | some version => reqMatches installedReq version
        | none => false

/-- C6 (counterexample): the claim says exact string equality is
checked before the emptiness test, so two (trimmed-)empty equal
specifiers would return `true`; in the code the emptiness test comes
first and `spec_satisfies (some "") ""` is `false`. -/
theorem C6_counterexample_empty_equal :
    strTrim "" = strTrim "" ∧ spec_satisfies (some "") "" = false :=
  ⟨rfl, by decide⟩

/-- C6 (amended): `spec_satisfies` returns `false` when the installed
specifier is absent or when either side is empty after trimming — the
emptiness test precedes the equality test, so this holds even for two
equal empty strings — and returns `true` on exact equality of the
trimmed specifiers whenever they are non-empty. -/
theorem C6_amended_emptiness_before_equality (v required : String) :
    spec_satisfies none required = false
    ∧ ((strTrim v).data.isEmpty = true ∨ (strTrim required).data.isEmpty = true →
        spec_satisfies (some v) required = false)
    ∧ ((strTrim v).data.isEmpty = false → strTrim v = strTrim required →
        spec_satisfies (some v) required = true) := by
  refine ⟨rfl, ?_, ?_⟩
  · intro h
    rcases h with h | h <;> simp [spec_satisfies, h]
  · intro hne heq
    simp [spec_satisfies, ← heq, hne]

/-- C6 (witness): the amended theorem evaluated at equal non-empty
specifiers that differ only by surrounding whitespace. -/
theorem C6_amended_emptiness_before_equality_witness :
    spec_satisfies (some " ^1.0.0") "^1.0.0 " = true :=
  (C6_amended_emptiness_before_equality " ^1.0.0" "^1.0.0 ").2.2
    (by decide) (by decide)

/-- Anchoring operators of the minimal-version scan. -/
def isAnchorOp (op : SemOp) : Bool :=
  match op with
  | SemOp.exact => true
  | SemOp.wildcard => true
  | SemOp.tilde => true
  | SemOp.caret => true
  | SemOp.greaterEq => true
  | SemOp.greater => true
  | SemOp.less => false
  | SemOp.lessEq => false

/-- The version an anchoring comparator contributes: its version, with
the patch incremented for a strictly-greater comparator. -/
def anchorVersion (c : Comparator) : SemVersion :=
  if c.op = SemOp.greater then increment_patch (version_from_comparator c)
  else version_from_comparator c

/-- The specification's description of the minimal version: `0.0.0`
for an empty requirement, else the first comparator in declaration
order with an anchoring operator, mapped to its anchor version. -/
def minimalVersionSpec (req : VersionReq) : Option SemVersion :=
  if req.comparators.isEmpty then some ⟨0, 0, 0, ""⟩
  else (req.comparators.find? (fun c => isAnchorOp c.op)).map anchorVersion

theorem minimalVersionFromReq_eq_find (l : List Comparator) :
    minimalVersionFromReq l = (l.find? (fun c => isAnchorOp c.op)).map anchorVersion := by
  induction l with
  | nil => rfl
  | cons c rest ih =>
    rcases c with ⟨op, major, minor, patch, pre⟩
    cases op <;>
      simp [minimalVersionFromReq, List.find?, isAnchorOp, anchorVersion, ih]

/-- C7: for every requirement string the modelled parser accepts,
`minimal_version` computes exactly the specification's minimal
version (first anchoring comparator in declaration order, minor/patch
defaulting to 0, patch incremented for strictly-greater, less-than
comparators skipped, 0.0.0 for an empty requirement); away from the
absent/empty/equal fast paths, `spec_satisfies` is exactly "the
installed range accepts that minimal version", with parse failure on
either side giving `false`; and the specification's three concrete
examples evaluate as stated. -/
theorem C7_minimal_version_satisfies (required : String) (req : VersionReq)
    (hp : parseVersionReq required = some req) :
    minimal_version required = minimalVersionSpec req
    ∧ (∀ v : String, (strTrim v).data.isEmpty = false →
        (strTrim required).data.isEmpty = false →
        strTrim v ≠ strTrim required →
        spec_satisfies (some v) required =
          (match parseVersionReq (strTrim v), minimal_version (strTrim required) with
           | some ireq, some ver => reqMatches ireq ver
           | _, _ => false))
    ∧ spec_satisfies (some "^2.0.0") "^2.1.0" = true
    ∧ spec_satisfies (some "^1.5.0") "^2.0.0" = false
    ∧ spec_satisfies none "^1.0.0" = false := by
  refine ⟨?_, ?_, by decide, by decide, rfl⟩
  · simp only [minimal_version, hp, minimalVersionSpec]
    by_cases he : req.comparators.isEmpty
    · rw [if_pos he, if_pos he]
    · rw [if_neg he, if_neg he]
      exact minimalVersionFromReq_eq_find req.comparators
  · intro v hvne hrne hne
    simp only [spec_satisfies, hvne, hrne, Bool.or_self, Bool.false_eq_true,
      if_false, if_neg hne]
    rcases parseVersionReq (strTrim v) with _ | ireq <;>
      rcases hm : minimal_version (strTrim required) with _ | ver <;>
      simp [hm]

/-- C7 (witness): the minimal-version theorem applied to the parseable
requirement `^2.1.0`, with its satisfaction clause instantiated at the
installed specifier `^3.0.0`. -/
theorem C7_minimal_version_satisfies_witness :
    minimal_version "^2.1.0" =
      minimalVersionSpec ⟨[⟨SemOp.caret, 2, some 1, some 0, ""⟩]⟩
    ∧ spec_satisfies (some "^3.0.0") "^2.1.0" =
        (match parseVersionReq (strTrim "^3.0.0"),
            minimal_version (strTrim "^2.1.0") with
         | some ireq, some ver => reqMatches ireq ver
         | _, _ => false) := by
  have h := C7_minimal_version_satisfies "^2.1.0"
    ⟨[⟨SemOp.caret, 2, some 1, some 0, ""⟩]⟩ (by decide)
  exact ⟨h.1, h.2.1 "^3.0.0" (by decide) (by decide) (by decide)⟩

/-! ### The Barrel Renderer (`crates/core/src/components.rs`) -/

/-- A component export spec (`components.rs`, struct
`ComponentExportSpec`). -/
structure ComponentExportSpec where
  export_name : String
  entry_path : List PComponent
deriving DecidableEq, Repr

/-- A type export spec (`components.rs`, struct `TypeExportSpec`). -/
structure TypeExportSpec where
  export_names : List String
  entry_path : List PComponent
deriving DecidableEq, Repr

/-- `BTreeMap::insert` (overwrite) on a sorted association list. -/
def mapInsert : List (String × String) → String → String → List (String × String)
  | [], k, v => [(k, v)]
  | (k', v') :: rest, k, v =>
    if strLt k k' then (k, v) :: (k', v') :: rest
    else if k = k' then (k, v) :: rest
    else (k', v') :: mapInsert rest k v

/-- `BTreeMap::get` on the association list. -/
def alistLookup (m : List (String × String)) (k : String) : Option String :=
  match m.find? (fun e => e.1 == k) with
  | some e => some e.2
  | none => none

/-- The `entry` match of the renderer: a vacant entry inserts the line
and marks the map modified; an occupied entry replaces the line (and
marks modified) only when the text changed. -/
def entryUpsert (m : List (String × String)) (k v : String) :
    List (String × String) × Bool :=
  match alistLookup m k with
  | none => (mapInsert m k v, true)
  | some old => if old ≠ v then (mapInsert m k v, true) else (m, false)

/-- `BarrelExports` (`components.rs`): the two ordered-by-name maps of
default-export lines and type-export lines. -/
structure BarrelExports where
  components : List (String × String)
  types : List (String × String)
deriving DecidableEq, Repr

/-- `BarrelExports::is_empty`. -/
def BarrelExports.isEmpty (b : BarrelExports) : Bool :=
  b.components.isEmpty && b.types.isEmpty

/-- `BarrelExports::render`: every component line then every type
line, each followed by a newline. -/
def BarrelExports.render (b : BarrelExports) : String :=
  ((b.components.map Prod.snd) ++ (b.types.map Prod.snd)).foldl
    (fun acc line => acc ++ line ++ "\n") ""

/-- Model of `str::lines`: split on `'\n'`, drop a final empty piece
produced by a trailing newline, and strip one trailing `'\r'` per
line. -/
def rustLines (s : String) : List String :=
  let parts := splitChar '\n' s.data
  let parts := if parts.getLast? = some [] then parts.dropLast else parts
  parts.map fun l =>
    String.mk (if l.getLast? = some '\r' then l.dropLast else l)

/-- The canonical component export line
`export { default as NAME } from "IMPORT";`. -/
def mkComponentLine (name imp : String) : String :=
  "export \x7b default as " ++ name ++ " \x7d from \"" ++ imp ++ "\";"

/-- The canonical type export line
`export type { NAME } from "IMPORT";`. -/
def mkTypeLine (name imp : String) : String :=
  "export type \x7b " ++ name ++ " \x7d from \"" ++ imp ++ "\";"

/-- The import-path cleanup applied to the text after `from`:
`remainder.trim().trim_start_matches('"').trim_end_matches("\";")`. -/
def cleanRemainder (remainder : String) : String :=
  trimEndMatches (trimStartMatchesChar '"' (strTrim remainder)) "\";"

/-- The insertions a single barrel line contributes during parsing
(`parse_export_map`'s per-line match): a component re-export line
contributes one rebuilt component entry keyed by the trimmed name; a
type re-export line contributes one rebuilt type entry per trimmed,
non-empty, comma-separated name; anything else contributes nothing. -/
def lineInserts (line : String) : List (String × String) × List (String × String) :=
  let trimmed := strTrim line
  match stripPre trimmed "export \x7b default as " with
  | some rest =>
    match splitOnce rest " \x7d from " with
    | some (name, remainder) =>
      ([(strTrim name, mkComponentLine (strTrim name) (cleanRemainder remainder))], [])
    | none => ([], [])
  | none =>
    match stripPre trimmed "export type \x7b" with
    | some rest =>
      match splitOnce rest "\x7d from " with
      | some (names, remainder) =>
        ([], (((strSplitChar ',' names).map strTrim).filter
            (fun v => ! v.data.isEmpty)).map
          (fun n => (n, mkTypeLine n (cleanRemainder remainder))))
      | none => ([], [])
    | none => ([], [])

/-- Insert a batch of entries (`BTreeMap::insert` per pair). -/
def insertAll (m : List (String × String)) (ps : List (String × String)) :
    List (String × String) :=
  ps.foldl (fun m p => mapInsert m p.1 p.2) m

/-- One step of `parse_export_map`'s line loop. -/
def parseExportLine (b : BarrelExports) (line : String) : BarrelExports :=
  { components := insertAll b.components (lineInserts line).1
    types := insertAll b.types (lineInserts line).2 }

/-- `parse_export_map` (`components.rs`): fold the per-line parser
over the lines of the existing barrel text. -/
def parse_export_map (contents : String) : BarrelExports :=
  (rustLines contents).foldl parseExportLine ⟨[], []⟩

/-- `Path::is_absolute` (Unix: the path has a root). -/
def pathIsAbsolute (p : List PComponent) : Bool :=
  match p with
  | PComponent.rootDir :: _ => true
  | PComponent.drive _ :: _ => true
  | _ => false

/-- `Path::parent`: strip the last component; `None` for an empty or
root-only path. -/
def pathParent : List PComponent → Option (List PComponent)
  | [] => none
  | [PComponent.rootDir] => none
  | [PComponent.drive _] => none
  | p => some p.dropLast

/-- `Path::strip_prefix` by component comparison. -/
def pathStripPre (p base : List PComponent) : Option (List PComponent) :=
  if base.isPrefixOf p then some (p.drop base.length) else none

/-- The textual form of one component (`Component::as_os_str`). -/
def compAsStr : PComponent → String
  | PComponent.normal s => s
  | PComponent.parentDir => ".."
  | PComponent.curDir => "."
  | PComponent.rootDir => "/"
  | PComponent.drive s => s

/-- `path_to_slash` (`components.rs`): join the components with
forward slashes. -/
def path_to_slash (p : List PComponent) : String :=
  joinSep "/" (p.map compAsStr)

/-- The component-walking loop of `pathdiff::diff_paths` (external
crate, modelled from its source semantics): consume both iterators,
skipping the common prefix, emitting `..` for each remaining base
component, then the remaining path components. -/
def diffPathsLoop : List PComponent → List PComponent → List PComponent →
    Option (List PComponent)
  | [], [], comps => some comps
  | a :: ita, [], comps => some (comps ++ a :: ita)
  | [], _ :: itb, comps => diffPathsLoop [] itb (comps ++ [PComponent.parentDir])
  | a :: ita, b :: itb, comps =>
    if comps.isEmpty ∧ a = b then diffPathsLoop ita itb comps
    else if b = PComponent.curDir then diffPathsLoop ita itb (comps ++ [a])
    else if b = PComponent.parentDir then none
    else
      some (comps ++ PComponent.parentDir ::
        (itb.map (fun _ => PComponent.parentDir) ++ a :: ita))

/-- `pathdiff::diff_paths`: mixed absolute/relative arguments resolve
to the path itself or fail; otherwise run the walking loop. -/
def diff_paths (path base : List PComponent) : Option (List PComponent) :=
  if pathIsAbsolute path ≠ pathIsAbsolute base then
    (if pathIsAbsolute path then some path else none)
  else diffPathsLoop path base []

/-- The `diff_paths` fallback inside `compute_import_path`: a relative
path from the barrel directory, `./`-prefixed unless already
dot-relative. -/
def importViaDiff (barrel_dir entry_path : List PComponent) : Option String :=
  match diff_paths entry_path barrel_dir with
  | none => none
  | some relative =>
    let path_str := path_to_slash relative
    some (if strStartsWith path_str "." then path_str else "./" ++ path_str)

/-- `compute_import_path` (`components.rs`): prefer a path relative to
the configured components directory, else fall back to a path relative
to the barrel's directory. -/
def compute_import_path (workspace_root barrel_dir : List PComponent)
    (preferred_base : Option String) (entry_path : List PComponent) :
    Option String :=
  match preferred_base with
  | some base =>
    match pathStripPre entry_path (workspace_path workspace_root base) with
    | some rel => some ("./" ++ path_to_slash rel)
    | none => importViaDiff barrel_dir entry_path
  | none => importViaDiff barrel_dir entry_path

/-- The barrel's directory: the parent of the resolved barrel path,
defaulting to the workspace root. -/
def barrelDirOf (workspace_root : List PComponent) (config : Config) :
    List PComponent :=
  (pathParent (workspace_path workspace_root config.exports.components.barrel)).getD
    workspace_root

/-- The per-component step of `render_component_barrel`: compute the
import, build the canonical line, and upsert it into the components
map, accumulating the modified flag. -/
def applyComponentExport (workspace_root barrel_dir : List PComponent)
    (config : Config) (st : BarrelExports × Bool)
    (component : ComponentExportSpec) : BarrelExports × Bool :=
  match compute_import_path workspace_root barrel_dir
      (some config.aliases.components.filesystem) component.entry_path with
  | some imp =>
    let line := mkComponentLine component.export_name imp
    let r := entryUpsert st.1.components component.export_name line
    ({ st.1 with components := r.1 }, st.2 || r.2)
  | none => st

/-- The per-type-entry step of `render_component_barrel`: one upsert
per non-empty export name sharing the entry's import path. -/
def applyTypeExport (workspace_root barrel_dir : List PComponent)
    (config : Config) (st : BarrelExports × Bool)
    (type_entry : TypeExportSpec) : BarrelExports × Bool :=
  match compute_import_path workspace_root barrel_dir
      (some config.aliases.components.filesystem) type_entry.entry_path with
  | some imp =>
    (type_entry.export_names.filter (fun n => ! n.data.isEmpty)).foldl
      (fun st n =>
        let line := mkTypeLine n imp
        let r := entryUpsert st.1.types n line
        ({ st.1 with types := r.1 }, st.2 || r.2)) st
  | none => st

/-- `render_component_barrel` (`components.rs`): `None` when both
export lists are empty; otherwise parse the existing barrel, upsert
every component and type export, and return the rendered text only
when a change was made and the map is non-empty. -/
def render_component_barrel (workspace_root : List PComponent) (config : Config)
    (components : List ComponentExportSpec) (type_exports : List TypeExportSpec)
    (existing : String) : Option String :=
  if components.isEmpty && type_exports.isEmpty then none
  else
    let export_map := parse_export_map existing
    let barrel_dir := barrelDirOf workspace_root config
    let st1 := components.foldl
      (applyComponentExport workspace_root barrel_dir config) (export_map, false)
    let st2 := type_exports.foldl
      (applyTypeExport workspace_root barrel_dir config) st1
    if st2.2 && ! st2.1.isEmpty then some st2.1.render else none

/-! ### Lemmas about the barrel maps -/

/-- Keys strictly ascending — the invariant of the `BTreeMap` model. -/
def sortedMap (m : List (String × String)) : Prop :=
  List.Pairwise (fun a b => strLt a.1 b.1) m

theorem alistLookup_nil (k : String) : alistLookup [] k = none := rfl

theorem alistLookup_cons (k' v' : String) (m : List (String × String)) (k : String) :
    alistLookup ((k', v') :: m) k = if k' = k then some v' else alistLookup m k := by
  by_cases h : k' = k
  · rw [if_pos h]
    unfold alistLookup
    rw [List.find?_cons_of_pos _ (by simpa using h)]
  · rw [if_neg h]
    unfold alistLookup
    rw [List.find?_cons_of_neg _ (by simpa using h)]

theorem mem_mapInsert {m : List (String × String)} {k v : String} :
    ∀ p ∈ mapInsert m k v, p = (k, v) ∨ p ∈ m := by
  induction m with
  | nil => intro p hp; simpa [mapInsert] using hp
  | cons e rest ih =>
    intro p hp
    rw [mapInsert] at hp
    by_cases h1 : strLt k e.1
    · rw [if_pos h1] at hp
      rcases List.mem_cons.mp hp with he | hp
      · exact Or.inl he
      · exact Or.inr hp
    · rw [if_neg h1] at hp
      by_cases h2 : k = e.1
      · rw [if_pos h2] at hp
        rcases List.mem_cons.mp hp with he | hp
        · exact Or.inl he
        · exact Or.inr (List.mem_cons_of_mem e hp)
      · rw [if_neg h2] at hp
        rcases List.mem_cons.mp hp with he | hp
        · exact Or.inr (by rw [he]; exact List.mem_cons_self e rest)
        · rcases ih p hp with h | h
          · exact Or.inl h
          · exact Or.inr (List.mem_cons_of_mem e h)

theorem mapInsert_sorted {m : List (String × String)} {k v : String}
    (hs : sortedMap m) : sortedMap (mapInsert m k v) := by
  induction m with
  | nil => exact List.pairwise_cons.mpr ⟨(by intro b hb; cases hb), List.Pairwise.nil⟩
  | cons e rest ih =>
    rcases List.pairwise_cons.mp hs with ⟨he, hrest⟩
    rw [mapInsert]
    by_cases h1 : strLt k e.1
    · rw [if_pos h1]
      refine List.pairwise_cons.mpr ⟨?_, hs⟩
      intro b hb
      rcases List.mem_cons.mp hb with hbe | hb
      · exact hbe ▸ h1
      · exact strLt_trans h1 (he b hb)
    · rw [if_neg h1]
      by_cases h2 : k = e.1
      · rw [if_pos h2]
        refine List.pairwise_cons.mpr ⟨?_, hrest⟩
        intro b hb
        exact h2 ▸ he b hb
      · rw [if_neg h2]
        have hlt : strLt e.1 k := by
          by_contra hx
          exact h2 (strLt_connex h1 hx)
        refine List.pairwise_cons.mpr ⟨?_, ih hrest⟩
        intro b hb
        rcases mem_mapInsert b hb with hbe | hb
        · exact hbe ▸ hlt
        · exact he b hb

theorem alistLookup_mapInsert_self (m : List (String × String)) (k v : String) :
    alistLookup (mapInsert m k v) k = some v := by
  induction m with
  | nil => rw [mapInsert, alistLookup_cons, if_pos rfl]
  | cons e rest ih =>
    rw [mapInsert]
    by_cases h1 : strLt k e.1
    · rw [if_pos h1, alistLookup_cons, if_pos rfl]
    · rw [if_neg h1]
      by_cases h2 : k = e.1
      · rw [if_pos h2, alistLookup_cons, if_pos rfl]
      · rw [if_neg h2, alistLookup_cons,
          if_neg (fun he => h2 he.symm)]
        exact ih

theorem alistLookup_mapInsert_other (m : List (String × String)) (k v k' : String)
    (hne : k' ≠ k) :
    alistLookup (mapInsert m k v) k' = alistLookup m k' := by
  induction m with
  | nil =>
    rw [mapInsert, alistLookup_cons, if_neg (fun he => hne he.symm), alistLookup_nil]
  | cons e rest ih =>
    rw [mapInsert]
    by_cases h1 : strLt k e.1
    · rw [if_pos h1, alistLookup_cons, if_neg (fun he => hne he.symm)]
    · rw [if_neg h1]
      by_cases h2 : k = e.1
      · rw [if_pos h2, alistLookup_cons, alistLookup_cons,
          if_neg (fun he => hne he.symm), if_neg (fun he => hne (h2.trans he).symm)]
      · rw [if_neg h2, alistLookup_cons, alistLookup_cons]
        by_cases h3 : e.1 = k'
        · rw [if_pos h3, if_pos h3]
        · rw [if_neg h3, if_neg h3]
          exact ih

theorem mapInsert_append_gt {m : List (String × String)} {k v : String}
    (hgt : ∀ p ∈ m, strLt p.1 k) :
    mapInsert m k v = m ++ [(k, v)] := by
  induction m with
  | nil => rfl
  | cons e rest ih =>
    have hek : strLt e.1 k := hgt e (List.mem_cons_self e rest)
    rw [mapInsert, if_neg (strLt_asymm hek),
      if_neg (fun he => strLt_irrefl k (by rw [← he] at hek; exact hek)),
      ih (fun p hp => hgt p (List.mem_cons_of_mem e hp))]
    rfl

theorem entryUpsert_of_lookup_eq {m : List (String × String)} {k v : String}
    (h : alistLookup m k = some v) : entryUpsert m k v = (m, false) := by
  simp [entryUpsert, h]

theorem entryUpsert_lookup_self (m : List (String × String)) (k v : String) :
    alistLookup (entryUpsert m k v).1 k = some v := by
  rcases h : alistLookup m k with _ | old
  · simp only [entryUpsert, h]
    exact alistLookup_mapInsert_self m k v
  · by_cases he : old ≠ v
    · simp only [entryUpsert, h, if_pos he]
      exact alistLookup_mapInsert_self m k v
    · simp only [entryUpsert, h, if_neg he]
      rw [Decidable.not_not.mp he]

theorem entryUpsert_lookup_other (m : List (String × String)) (k v k' : String)
    (hne : k' ≠ k) :
    alistLookup (entryUpsert m k v).1 k' = alistLookup m k' := by
  rcases h : alistLookup m k with _ | old
  · simp only [entryUpsert, h]
    exact alistLookup_mapInsert_other m k v k' hne
  · by_cases he : old ≠ v
    · simp only [entryUpsert, h, if_pos he]
      exact alistLookup_mapInsert_other m k v k' hne
    · simp only [entryUpsert, h, if_neg he]

theorem entryUpsert_sorted {m : List (String × String)} {k v : String}
    (hs : sortedMap m) : sortedMap (entryUpsert m k v).1 := by
  rcases h : alistLookup m k with _ | old
  · simp only [entryUpsert, h]
    exact mapInsert_sorted hs
  · by_cases he : old ≠ v
    · simp only [entryUpsert, h, if_pos he]
      exact mapInsert_sorted hs
    · simp only [entryUpsert, h, if_neg he]
      exact hs

theorem mem_entryUpsert {m : List (String × String)} {k v : String} :
    ∀ p ∈ (entryUpsert m k v).1, p = (k, v) ∨ p ∈ m := by
  rcases h : alistLookup m k with _ | old
  · simp only [entryUpsert, h]
    exact mem_mapInsert
  · by_cases he : old ≠ v
    · simp only [entryUpsert, h, if_pos he]
      exact mem_mapInsert
    · simp only [entryUpsert, h, if_neg he]
      exact fun p hp => Or.inr hp

theorem strData_append (a b : String) : (a ++ b).data = a.data ++ b.data := rfl

theorem splitChar_append_nl {l : List Char} (h : l.contains '\n' = false) :
    ∀ rest, splitChar '\n' (l ++ '\n' :: rest) = l :: splitChar '\n' rest := by
  induction l with
  | nil => intro rest; rw [List.nil_append, splitChar, if_pos rfl]
  | cons c cs ih =>
    intro rest
    have hc : c ≠ '\n' := by
      intro he
      rw [List.contains_cons] at h
      simp [he] at h
    have hcs : cs.contains '\n' = false := by
      rw [List.contains_cons] at h
      rcases Bool.or_eq_false_iff.mp h with ⟨_, h2⟩
      exact h2
    rw [List.cons_append, splitChar]
    rw [ih hcs rest]
    simp [hc]

/-- A line that survives the line-splitting round trip. -/
def goodLine (v : String) : Prop :=
  v.data.contains '\n' = false ∧ v.data.getLast? ≠ some '\r'

theorem rustLines_concat (lines : List String)
    (h : ∀ v ∈ lines, goodLine v) :
    rustLines (lines.foldl (fun acc line => acc ++ line ++ "\n") "") = lines := by
  have hfold : ∀ (ls : List String) (acc : String),
      (ls.foldl (fun acc line => acc ++ line ++ "\n") acc).data =
        acc.data ++ (ls.map (fun l => l.data ++ ['\n'])).flatten := by
    intro ls
    induction ls with
    | nil => intro acc; simp
    | cons x xs ih =>
      intro acc
      rw [List.foldl_cons, ih, List.map_cons, List.flatten_cons]
      rw [strData_append, strData_append]
      simp
  have hsplit : ∀ ls : List String, (∀ v ∈ ls, goodLine v) →
      splitChar '\n' ((ls.map (fun l => l.data ++ ['\n'])).flatten) =
        (ls.map (fun v => v.data)) ++ [[]] := by
    intro ls
    induction ls with
    | nil => intro _; rfl
    | cons x xs ih =>
      intro hg
      rw [List.map_cons, List.flatten_cons, List.append_assoc]
      have hx : x.data.contains '\n' = false := (hg x (List.mem_cons_self x xs)).1
      rw [List.singleton_append, splitChar_append_nl hx]
      rw [ih (fun v hv => hg v (List.mem_cons_of_mem x hv))]
      rfl
  rw [rustLines, hfold lines ""]
  have hempty : ("" : String).data = [] := rfl
  rw [hempty, List.nil_append, hsplit lines h]
  have hlast : ((lines.map (fun v : String => v.data)) ++ [[]]).getLast? = some [] :=
    List.getLast?_concat _
  have hmap : ∀ v ∈ lines,
      ((fun l : List Char =>
          String.mk (if l.getLast? = some '\r' then l.dropLast else l)) ∘
        fun w : String => w.data) v = id v := by
    intro v hv
    show String.mk (if v.data.getLast? = some '\r' then v.data.dropLast else v.data) = v
    rw [if_neg (h v hv).2]
  rw [if_pos hlast, List.dropLast_concat, List.map_map, List.map_congr_left hmap,
    List.map_id]

/-- A component map entry whose line re-parses to exactly itself under
its own key, and survives line splitting. -/
def stableCompPair (p : String × String) : Prop :=
  lineInserts p.2 = ([(p.1, p.2)], []) ∧ goodLine p.2

/-- A type map entry whose line re-parses to exactly itself under its
own key, and survives line splitting. -/
def stableTypePair (p : String × String) : Prop :=
  lineInserts p.2 = ([], [(p.1, p.2)]) ∧ goodLine p.2

theorem insertAll_single (m : List (String × String)) (k v : String) :
    insertAll m [(k, v)] = mapInsert m k v := rfl

theorem insertAll_nil (m : List (String × String)) : insertAll m [] = m := rfl

theorem foldParse_comp (t : List (String × String)) :
    ∀ (ps acc : List (String × String)),
      List.Pairwise (fun a b => strLt a.1 b.1) (acc ++ ps) →
      (∀ p ∈ ps, stableCompPair p) →
      (ps.map Prod.snd).foldl parseExportLine ⟨acc, t⟩ = ⟨acc ++ ps, t⟩ := by
  intro ps
  induction ps with
  | nil => intro acc _ _; rw [List.map_nil, List.foldl_nil, List.append_nil]
  | cons p ps' ih =>
    intro acc hsorted hstable
    rw [List.map_cons, List.foldl_cons]
    have hstep : parseExportLine ⟨acc, t⟩ p.2 = ⟨acc ++ [p], t⟩ := by
      rw [parseExportLine, (hstable p (List.mem_cons_self p ps')).1]
      show BarrelExports.mk (insertAll acc [(p.1, p.2)]) (insertAll t []) = _
      rw [insertAll_single, insertAll_nil]
      have hgt : ∀ q ∈ acc, strLt q.1 p.1 := by
        intro q hq
        exact (List.pairwise_append.mp hsorted).2.2 q hq p (List.mem_cons_self p ps')
      rw [mapInsert_append_gt hgt]
    rw [hstep, ih (acc ++ [p])
      (by rw [List.append_assoc, List.singleton_append]; exact hsorted)
      (fun q hq => hstable q (List.mem_cons_of_mem p hq))]
    rw [List.append_assoc, List.singleton_append]

theorem foldParse_type (c : List (String × String)) :
    ∀ (ps acc : List (String × String)),
      List.Pairwise (fun a b => strLt a.1 b.1) (acc ++ ps) →
      (∀ p ∈ ps, stableTypePair p) →
      (ps.map Prod.snd).foldl parseExportLine ⟨c, acc⟩ = ⟨c, acc ++ ps⟩ := by
  intro ps
  induction ps with
  | nil => intro acc _ _; rw [List.map_nil, List.foldl_nil, List.append_nil]
  | cons p ps' ih =>
    intro acc hsorted hstable
    rw [List.map_cons, List.foldl_cons]
    have hstep : parseExportLine ⟨c, acc⟩ p.2 = ⟨c, acc ++ [p]⟩ := by
      rw [parseExportLine, (hstable p (List.mem_cons_self p ps')).1]
      show BarrelExports.mk (insertAll c []) (insertAll acc [(p.1, p.2)]) = _
      rw [insertAll_single, insertAll_nil]
      have hgt : ∀ q ∈ acc, strLt q.1 p.1 := by
        intro q hq
        exact (List.pairwise_append.mp hsorted).2.2 q hq p (List.mem_cons_self p ps')
      rw [mapInsert_append_gt hgt]
    rw [hstep, ih (acc ++ [p])
      (by rw [List.append_assoc, List.singleton_append]; exact hsorted)
      (fun q hq => hstable q (List.mem_cons_of_mem p hq))]
    rw [List.append_assoc, List.singleton_append]

/-- Re-parsing a rendered barrel whose entries are all stable
reproduces exactly the same maps. -/
theorem parse_render_id (b : BarrelExports)
    (hsc : sortedMap b.components) (hst : sortedMap b.types)
    (hc : ∀ p ∈ b.components, stableCompPair p)
    (ht : ∀ p ∈ b.types, stableTypePair p) :
    parse_export_map b.render = b := by
  have hlines : rustLines b.render =
      b.components.map Prod.snd ++ b.types.map Prod.snd := by
    rw [BarrelExports.render]
    refine rustLines_concat _ ?_
    intro v hv
    rcases List.mem_append.mp hv with h | h
    · rcases List.mem_map.mp h with ⟨p, hp, he⟩
      exact he ▸ (hc p hp).2
    · rcases List.mem_map.mp h with ⟨p, hp, he⟩
      exact he ▸ (ht p hp).2
  rw [parse_export_map, hlines, List.foldl_append]
  have h1 : (b.components.map Prod.snd).foldl parseExportLine ⟨[], []⟩ =
      ⟨b.components, []⟩ := by
    have := foldParse_comp [] b.components [] (by simpa using hsc) hc
    simpa using this
  rw [h1]
  have h2 : (b.types.map Prod.snd).foldl parseExportLine ⟨b.components, []⟩ =
      ⟨b.components, b.types⟩ := by
    have := foldParse_type b.components b.types [] (by simpa using hst) ht
    simpa using this
  rw [h2]

/-! ### The two render passes -/

theorem applyComp_types_eq (root bd : List PComponent) (cfg : Config)
    (st : BarrelExports × Bool) (c : ComponentExportSpec) :
    ((applyComponentExport root bd cfg st c).1).types = st.1.types := by
  rw [applyComponentExport]
  rcases compute_import_path root bd (some cfg.aliases.components.filesystem)
    c.entry_path with _ | imp <;> rfl

theorem foldComps_types_eq (root bd : List PComponent) (cfg : Config) :
    ∀ (cs : List ComponentExportSpec) (st : BarrelExports × Bool),
      ((cs.foldl (applyComponentExport root bd cfg) st).1).types = st.1.types := by
  intro cs
  induction cs with
  | nil => intro st; rfl
  | cons c cs' ih =>
    intro st
    rw [List.foldl_cons, ih, applyComp_types_eq]

theorem foldTypeNames_comps_eq (imp : String) :
    ∀ (names : List String) (st : BarrelExports × Bool),
      ((names.foldl (fun st n =>
          let line := mkTypeLine n imp
          let r := entryUpsert st.1.types n line
          ({ st.1 with types := r.1 }, st.2 || r.2)) st).1).components =
        st.1.components := by
  intro names
  induction names with
  | nil => intro st; rfl
  | cons n ns ih =>
    intro st
    rw [List.foldl_cons]
    rw [ih]

theorem applyType_comps_eq (root bd : List PComponent) (cfg : Config)
    (st : BarrelExports × Bool) (te : TypeExportSpec) :
    ((applyTypeExport root bd cfg st te).1).components = st.1.components := by
  rw [applyTypeExport]
  rcases compute_import_path root bd (some cfg.aliases.components.filesystem)
    te.entry_path with _ | imp
  · rfl
  · exact foldTypeNames_comps_eq imp _ st

theorem foldTypes_comps_eq (root bd : List PComponent) (cfg : Config) :
    ∀ (tes : List TypeExportSpec) (st : BarrelExports × Bool),
      ((tes.foldl (applyTypeExport root bd cfg) st).1).components = st.1.components := by
  intro tes
  induction tes with
  | nil => intro st; rfl
  | cons te tes' ih =>
    intro st
    rw [List.foldl_cons, ih, applyType_comps_eq]

theorem applyComp_sorted_stable (root bd : List PComponent) (cfg : Config)
    (st : BarrelExports × Bool) (c : ComponentExportSpec)
    (hs : sortedMap st.1.components)
    (hall : ∀ p ∈ st.1.components, stableCompPair p)
    (hstable : ∀ P, compute_import_path root bd
        (some cfg.aliases.components.filesystem) c.entry_path = some P →
        stableCompPair (c.export_name, mkComponentLine c.export_name P)) :
    sortedMap ((applyComponentExport root bd cfg st c).1).components
    ∧ ∀ p ∈ ((applyComponentExport root bd cfg st c).1).components,
        stableCompPair p := by
  rw [applyComponentExport]
  rcases hcp : compute_import_path root bd (some cfg.aliases.components.filesystem)
    c.entry_path with _ | imp
  · exact ⟨hs, hall⟩
  · refine ⟨entryUpsert_sorted hs, ?_⟩
    intro p hp
    rcases mem_entryUpsert p hp with he | hp
    · exact he ▸ hstable imp hcp
    · exact hall p hp

theorem foldComps_sorted_stable (root bd : List PComponent) (cfg : Config) :
    ∀ (cs : List ComponentExportSpec) (st : BarrelExports × Bool),
      sortedMap st.1.components →
      (∀ p ∈ st.1.components, stableCompPair p) →
      (∀ c ∈ cs, ∀ P, compute_import_path root bd
          (some cfg.aliases.components.filesystem) c.entry_path = some P →
          stableCompPair (c.export_name, mkComponentLine c.export_name P)) →
      sortedMap ((cs.foldl (applyComponentExport root bd cfg) st).1).components
      ∧ ∀ p ∈ ((cs.foldl (applyComponentExport root bd cfg) st).1).components,
          stableCompPair p := by
  intro cs
  induction cs with
  | nil => intro st hs hall _; exact ⟨hs, hall⟩
  | cons c cs' ih =>
    intro st hs hall hcs
    rw [List.foldl_cons]
    rcases applyComp_sorted_stable root bd cfg st c hs hall
      (hcs c (List.mem_cons_self c cs')) with ⟨hs', hall'⟩
    exact ih _ hs' hall' (fun c' hc' => hcs c' (List.mem_cons_of_mem c hc'))

theorem foldTypeNames_sorted_stable (imp : String) :
    ∀ (names : List String) (st : BarrelExports × Bool),
      sortedMap st.1.types → (∀ p ∈ st.1.types, stableTypePair p) →
      (∀ n ∈ names, stableTypePair (n, mkTypeLine n imp)) →
      sortedMap ((names.foldl (fun st n =>
          let line := mkTypeLine n imp
          let r := entryUpsert st.1.types n line
          ({ st.1 with types := r.1 }, st.2 || r.2)) st).1).types
      ∧ ∀ p ∈ ((names.foldl (fun st n =>
          let line := mkTypeLine n imp
          let r := entryUpsert st.1.types n line
          ({ st.1 with types := r.1 }, st.2 || r.2)) st).1).types,
          stableTypePair p := by
  intro names
  induction names with
  | nil => intro st hs hall _; exact ⟨hs, hall⟩
  | cons n ns ihn =>
    intro st hs hall hnames
    rw [List.foldl_cons]
    have h1 : sortedMap ((entryUpsert st.1.types n (mkTypeLine n imp)).1) :=
      entryUpsert_sorted hs
    have h2 : ∀ p ∈ (entryUpsert st.1.types n (mkTypeLine n imp)).1,
        stableTypePair p := by
      intro p hp
      rcases mem_entryUpsert p hp with he | hp
      · exact he ▸ hnames n (List.mem_cons_self n ns)
      · exact hall p hp
    exact ihn _ h1 h2 (fun n' hn' => hnames n' (List.mem_cons_of_mem n hn'))

theorem applyType_sorted_stable (root bd : List PComponent) (cfg : Config)
    (st : BarrelExports × Bool) (te : TypeExportSpec)
    (hs : sortedMap st.1.types)
    (hall : ∀ p ∈ st.1.types, stableTypePair p)
    (hstable : ∀ P, compute_import_path root bd
        (some cfg.aliases.components.filesystem) te.entry_path = some P →
        ∀ n ∈ te.export_names, n.data.isEmpty = false →
          stableTypePair (n, mkTypeLine n P)) :
    sortedMap ((applyTypeExport root bd cfg st te).1).types
    ∧ ∀ p ∈ ((applyTypeExport root bd cfg st te).1).types, stableTypePair p := by
  rw [applyTypeExport]
  rcases hcp : compute_import_path root bd (some cfg.aliases.components.filesystem)
    te.entry_path with _ | imp
  · exact ⟨hs, hall⟩
  · have hnames : ∀ n ∈ te.export_names.filter (fun n => ! n.data.isEmpty),
        stableTypePair (n, mkTypeLine n imp) := by
      intro n hn
      rcases List.mem_filter.mp hn with ⟨hmem, hne⟩
      refine hstable imp hcp n hmem ?_
      rcases Bool.eq_false_or_eq_true (n.data.isEmpty) with h | h
      · rw [h] at hne; cases hne
      · exact h
    exact foldTypeNames_sorted_stable imp _ st hs hall hnames

theorem insertAll_sorted : ∀ (ps m : List (String × String)),
    sortedMap m → sortedMap (insertAll m ps) := by
  intro ps
  induction ps with
  | nil => intro m hm; exact hm
  | cons p ps' ih =>
    intro m hm
    rw [insertAll, List.foldl_cons]
    exact ih _ (mapInsert_sorted hm)

theorem parseExportLine_sorted (b : BarrelExports) (line : String)
    (hc : sortedMap b.components) (ht : sortedMap b.types) :
    sortedMap (parseExportLine b line).components
    ∧ sortedMap (parseExportLine b line).types :=
  ⟨insertAll_sorted _ _ hc, insertAll_sorted _ _ ht⟩

theorem foldParse_sorted : ∀ (lines : List String) (b : BarrelExports),
    sortedMap b.components → sortedMap b.types →
    sortedMap (lines.foldl parseExportLine b).components
    ∧ sortedMap (lines.foldl parseExportLine b).types := by
  intro lines
  induction lines with
  | nil => intro b hc ht; exact ⟨hc, ht⟩
  | cons line rest ih =>
    intro b hc ht
    rw [List.foldl_cons]
    rcases parseExportLine_sorted b line hc ht with ⟨hc', ht'⟩
    exact ih _ hc' ht'

theorem parse_sorted (contents : String) :
    sortedMap (parse_export_map contents).components
    ∧ sortedMap (parse_export_map contents).types :=
  foldParse_sorted (rustLines contents) ⟨[], []⟩ List.Pairwise.nil List.Pairwise.nil

theorem applyComp_lookup_other (root bd : List PComponent) (cfg : Config)
    (st : BarrelExports × Bool) (c : ComponentExportSpec) (k : String)
    (hne : c.export_name ≠ k) :
    alistLookup ((applyComponentExport root bd cfg st c).1).components k =
      alistLookup st.1.components k := by
  rw [applyComponentExport]
  rcases compute_import_path root bd (some cfg.aliases.components.filesystem)
    c.entry_path with _ | imp
  · rfl
  · exact entryUpsert_lookup_other _ _ _ _ (fun he => hne he.symm)

theorem foldComps_lookup_preserve (root bd : List PComponent) (cfg : Config) :
    ∀ (cs : List ComponentExportSpec) (st : BarrelExports × Bool) (k : String),
      (∀ c ∈ cs, c.export_name ≠ k) →
      alistLookup ((cs.foldl (applyComponentExport root bd cfg) st).1).components k =
        alistLookup st.1.components k := by
  intro cs
  induction cs with
  | nil => intro st k _; rfl
  | cons c cs' ih =>
    intro st k hne
    rw [List.foldl_cons, ih _ k (fun c' hc' => hne c' (List.mem_cons_of_mem c hc')),
      applyComp_lookup_other root bd cfg st c k (hne c (List.mem_cons_self c cs'))]

theorem applyComp_lookup_self (root bd : List PComponent) (cfg : Config)
    (st : BarrelExports × Bool) (c : ComponentExportSpec) (imp : String)
    (h : compute_import_path root bd (some cfg.aliases.components.filesystem)
        c.entry_path = some imp) :
    alistLookup ((applyComponentExport root bd cfg st c).1).components c.export_name =
      some (mkComponentLine c.export_name imp) := by
  simp only [applyComponentExport, h]
  exact entryUpsert_lookup_self _ _ _

theorem foldComps_lookup (root bd : List PComponent) (cfg : Config) :
    ∀ (cs : List ComponentExportSpec) (st : BarrelExports × Bool),
      (cs.map (fun c => c.export_name)).Nodup →
      ∀ c ∈ cs, ∀ P, compute_import_path root bd
          (some cfg.aliases.components.filesystem) c.entry_path = some P →
        alistLookup ((cs.foldl (applyComponentExport root bd cfg) st).1).components
            c.export_name = some (mkComponentLine c.export_name P) := by
  intro cs
  induction cs with
  | nil => intro st _ c hc; cases hc
  | cons c0 cs' ih =>
    intro st hnd c hc P hP
    rw [List.map_cons, List.nodup_cons] at hnd
    rw [List.foldl_cons]
    rcases List.mem_cons.mp hc with he | hc
    · subst he
      rw [foldComps_lookup_preserve root bd cfg cs' _ c.export_name
        (fun c' hc' hne => hnd.1 (hne ▸ List.mem_map_of_mem (fun c => c.export_name) hc'))]
      exact applyComp_lookup_self root bd cfg st c P hP
    · exact ih _ hnd.2 c hc P hP

theorem foldTypeNames_lookup_preserve (imp : String) :
    ∀ (names : List String) (st : BarrelExports × Bool) (k : String),
      (∀ n ∈ names, n ≠ k) →
      alistLookup ((names.foldl (fun st n =>
          let line := mkTypeLine n imp
          let r := entryUpsert st.1.types n line
          ({ st.1 with types := r.1 }, st.2 || r.2)) st).1).types k =
        alistLookup st.1.types k := by
  intro names
  induction names with
  | nil => intro st k _; rfl
  | cons n ns ih =>
    intro st k hne
    rw [List.foldl_cons, ih _ k (fun n' hn' => hne n' (List.mem_cons_of_mem n hn'))]
    exact entryUpsert_lookup_other _ _ _ _
      (fun he => hne n (List.mem_cons_self n ns) he.symm)

theorem foldTypeNames_lookup_self (imp : String) :
    ∀ (names : List String) (st : BarrelExports × Bool) (n : String),
      n ∈ names → names.Nodup →
      alistLookup ((names.foldl (fun st n =>
          let line := mkTypeLine n imp
          let r := entryUpsert st.1.types n line
          ({ st.1 with types := r.1 }, st.2 || r.2)) st).1).types n =
        some (mkTypeLine n imp) := by
  intro names
  induction names with
  | nil => intro st n hn; cases hn
  | cons n0 ns ih =>
    intro st n hn hnd
    rw [List.nodup_cons] at hnd
    rw [List.foldl_cons]
    rcases List.mem_cons.mp hn with he | hn
    · subst he
      rw [foldTypeNames_lookup_preserve imp ns _ n
        (fun n' hn' hne => hnd.1 (hne ▸ hn'))]
      exact entryUpsert_lookup_self _ _ _
    · exact ih _ n hn hnd.2

theorem applyType_lookup_preserve (root bd : List PComponent) (cfg : Config)
    (st : BarrelExports × Bool) (te : TypeExportSpec) (k : String)
    (hne : ∀ n ∈ te.export_names, n ≠ k) :
    alistLookup ((applyTypeExport root bd cfg st te).1).types k =
      alistLookup st.1.types k := by
  rw [applyTypeExport]
  rcases compute_import_path root bd (some cfg.aliases.components.filesystem)
    te.entry_path with _ | imp
  · rfl
  · exact foldTypeNames_lookup_preserve imp _ st k
      (fun n hn => hne n (List.mem_filter.mp hn).1)

theorem foldTypes_types_lookup_preserve (root bd : List PComponent) (cfg : Config) :
    ∀ (tes : List TypeExportSpec) (st : BarrelExports × Bool) (k : String),
      (∀ te ∈ tes, ∀ n ∈ te.export_names, n ≠ k) →
      alistLookup ((tes.foldl (applyTypeExport root bd cfg) st).1).types k =
        alistLookup st.1.types k := by
  intro tes
  induction tes with
  | nil => intro st k _; rfl
  | cons te tes' ih =>
    intro st k hne
    rw [List.foldl_cons, ih _ k (fun te' hte' => hne te' (List.mem_cons_of_mem te hte')),
      applyType_lookup_preserve root bd cfg st te k (hne te (List.mem_cons_self te tes'))]

theorem foldTypes_lookup (root bd : List PComponent) (cfg : Config) :
    ∀ (tes : List TypeExportSpec) (st : BarrelExports × Bool),
      ((tes.map (fun te => te.export_names)).flatten).Nodup →
      ∀ te ∈ tes, ∀ P, compute_import_path root bd
          (some cfg.aliases.components.filesystem) te.entry_path = some P →
        ∀ n ∈ te.export_names, n.data.isEmpty = false →
          alistLookup ((tes.foldl (applyTypeExport root bd cfg) st).1).types n =
            some (mkTypeLine n P) := by
  intro tes
  induction tes with
  | nil => intro st _ te hte; cases hte
  | cons te0 tes' ih =>
    intro st hnd te hte P hP n hn hne
    rw [List.map_cons, List.flatten_cons] at hnd
    rcases List.nodup_append.mp hnd with ⟨hnd0, hnd', hdisj⟩
    rw [List.foldl_cons]
    rcases List.mem_cons.mp hte with he | hte
    · subst he
      have hpres : ∀ te' ∈ tes', ∀ n' ∈ te'.export_names, n' ≠ n := by
        intro te' hte' n' hn' hEq
        refine hdisj hn ?_
        rw [hEq] at hn'
        exact List.mem_flatten.mpr ⟨te'.export_names,
          List.mem_map_of_mem (fun te => te.export_names) hte', hn'⟩
      rw [foldTypes_types_lookup_preserve root bd cfg tes' _ n hpres]
      simp only [applyTypeExport, hP]
      refine foldTypeNames_lookup_self P _ _ n ?_ (hnd0.filter _)
      exact List.mem_filter.mpr ⟨hn, by rw [hne]; rfl⟩
    · exact ih _ hnd' te hte P hP n hn hne

theorem applyComp_const (root bd : List PComponent) (cfg : Config)
    (m1 : BarrelExports) (c : ComponentExportSpec)
    (h : ∀ P, compute_import_path root bd (some cfg.aliases.components.filesystem)
        c.entry_path = some P →
      alistLookup m1.components c.export_name = some (mkComponentLine c.export_name P)) :
    applyComponentExport root bd cfg (m1, false) c = (m1, false) := by
  rcases hc : compute_import_path root bd (some cfg.aliases.components.filesystem)
    c.entry_path with _ | imp
  · simp only [applyComponentExport, hc]
  · simp only [applyComponentExport, hc]
    rw [entryUpsert_of_lookup_eq (h imp hc)]
    rfl

theorem foldComps_const (root bd : List PComponent) (cfg : Config)
    (m1 : BarrelExports) :
    ∀ cs : List ComponentExportSpec,
      (∀ c ∈ cs, ∀ P, compute_import_path root bd
          (some cfg.aliases.components.filesystem) c.entry_path = some P →
        alistLookup m1.components c.export_name =
          some (mkComponentLine c.export_name P)) →
      cs.foldl (applyComponentExport root bd cfg) (m1, false) = (m1, false) := by
  intro cs
  induction cs with
  | nil => intro _; rfl
  | cons c cs' ih =>
    intro h
    rw [List.foldl_cons,
      applyComp_const root bd cfg m1 c (h c (List.mem_cons_self c cs')),
      ih (fun c' hc' => h c' (List.mem_cons_of_mem c hc'))]

theorem foldTypeNames_const (imp : String) (m1 : BarrelExports) :
    ∀ names : List String,
      (∀ n ∈ names, alistLookup m1.types n = some (mkTypeLine n imp)) →
      names.foldl (fun st n =>
          let line := mkTypeLine n imp
          let r := entryUpsert st.1.types n line
          ({ st.1 with types := r.1 }, st.2 || r.2)) (m1, false) = (m1, false) := by
  intro names
  induction names with
  | nil => intro _; rfl
  | cons n ns ih =>
    intro h
    rw [List.foldl_cons]
    have hstep : (let line := mkTypeLine n imp
        let r := entryUpsert (m1, false).1.types n line
        ({ (m1, false).1 with types := r.1 }, (m1, false).2 || r.2)) = (m1, false) := by
      show ({ m1 with types := (entryUpsert m1.types n (mkTypeLine n imp)).1 },
        false || (entryUpsert m1.types n (mkTypeLine n imp)).2) = (m1, false)
      rw [entryUpsert_of_lookup_eq (h n (List.mem_cons_self n ns))]
      rfl
    rw [hstep, ih (fun n' hn' => h n' (List.mem_cons_of_mem n hn'))]

theorem applyType_const (root bd : List PComponent) (cfg : Config)
    (m1 : BarrelExports) (te : TypeExportSpec)
    (h : ∀ P, compute_import_path root bd (some cfg.aliases.components.filesystem)
        te.entry_path = some P →
      ∀ n ∈ te.export_names, n.data.isEmpty = false →
        alistLookup m1.types n = some (mkTypeLine n P)) :
    applyTypeExport root bd cfg (m1, false) te = (m1, false) := by
  rcases hc : compute_import_path root bd (some cfg.aliases.components.filesystem)
    te.entry_path with _ | imp
  · simp only [applyTypeExport, hc]
  · simp only [applyTypeExport, hc]
    refine foldTypeNames_const imp m1 _ ?_
    intro n hn
    rcases List.mem_filter.mp hn with ⟨hmem, hne⟩
    refine h imp hc n hmem ?_
    rcases Bool.eq_false_or_eq_true (n.data.isEmpty) with hb | hb
    · rw [hb] at hne; cases hne
    · exact hb

theorem foldTypes_const (root bd : List PComponent) (cfg : Config)
    (m1 : BarrelExports) :
    ∀ tes : List TypeExportSpec,
      (∀ te ∈ tes, ∀ P, compute_import_path root bd
          (some cfg.aliases.components.filesystem) te.entry_path = some P →
        ∀ n ∈ te.export_names, n.data.isEmpty = false →
          alistLookup m1.types n = some (mkTypeLine n P)) →
      tes.foldl (applyTypeExport root bd cfg) (m1, false) = (m1, false) := by
  intro tes
  induction tes with
  | nil => intro _; rfl
  | cons te tes' ih =>
    intro h
    rw [List.foldl_cons,
      applyType_const root bd cfg m1 te (h te (List.mem_cons_self te tes')),
      ih (fun te' hte' => h te' (List.mem_cons_of_mem te hte'))]

/-- The map-and-flag state after both upsert passes of
`render_component_barrel`. -/
def renderState (workspace_root : List PComponent) (config : Config)
    (components : List ComponentExportSpec) (type_exports : List TypeExportSpec)
    (existing : String) : BarrelExports × Bool :=
  type_exports.foldl
    (applyTypeExport workspace_root (barrelDirOf workspace_root config) config)
    (components.foldl
      (applyComponentExport workspace_root (barrelDirOf workspace_root config) config)
      (parse_export_map existing, false))

theorem render_unfold (workspace_root : List PComponent) (config : Config)
    (components : List ComponentExportSpec) (type_exports : List TypeExportSpec)
    (existing : String) :
    render_component_barrel workspace_root config components type_exports existing =
      if components.isEmpty && type_exports.isEmpty then none
      else if (renderState workspace_root config components type_exports existing).2
          && ! (renderState workspace_root config components type_exports
              existing).1.isEmpty
        then some (renderState workspace_root config components type_exports
          existing).1.render
        else none := rfl

theorem foldTypes_sorted_stable (root bd : List PComponent) (cfg : Config) :
    ∀ (tes : List TypeExportSpec) (st : BarrelExports × Bool),
      sortedMap st.1.types →
      (∀ p ∈ st.1.types, stableTypePair p) →
      (∀ te ∈ tes, ∀ P, compute_import_path root bd
          (some cfg.aliases.components.filesystem) te.entry_path = some P →
          ∀ n ∈ te.export_names, n.data.isEmpty = false →
            stableTypePair (n, mkTypeLine n P)) →
      sortedMap ((tes.foldl (applyTypeExport root bd cfg) st).1).types
      ∧ ∀ p ∈ ((tes.foldl (applyTypeExport root bd cfg) st).1).types,
          stableTypePair p := by
  intro tes
  induction tes with
  | nil => intro st hs hall _; exact ⟨hs, hall⟩
  | cons te tes' ih =>
    intro st hs hall htes
    rw [List.foldl_cons]
    rcases applyType_sorted_stable root bd cfg st te hs hall
      (htes te (List.mem_cons_self te tes')) with ⟨hs', hall'⟩
    exact ih _ hs' hall' (fun te' hte' => htes te' (List.mem_cons_of_mem te hte'))

/-- C8 (amended): barrel rendering is idempotent and duplicate-free
for well-formed inputs.  When every entry parsed from the existing
barrel re-parses stably, every component/type export contributes a
stable canonical line, and export names are free of duplicates, then:
rendering with empty export lists returns `None`; and whenever a
render returns new text, re-rendering the same exports against that
text returns `None`, and the text is the rendering of maps whose keys
are strictly sorted (so no two lines share an exported identifier) and
whose every line re-parses to exactly itself.  Without these
well-formedness conditions idempotence fails (see the counterexample
theorem). -/
theorem C8_amended_render_idempotent (root : List PComponent) (cfg : Config)
    (components : List ComponentExportSpec) (type_exports : List TypeExportSpec)
    (existing : String)
    (H1 : ∀ p ∈ (parse_export_map existing).components, stableCompPair p)
    (H2 : ∀ p ∈ (parse_export_map existing).types, stableTypePair p)
    (H3 : ∀ c ∈ components, ∀ P, compute_import_path root (barrelDirOf root cfg)
        (some cfg.aliases.components.filesystem) c.entry_path = some P →
        stableCompPair (c.export_name, mkComponentLine c.export_name P))
    (H4 : ∀ te ∈ type_exports, ∀ P, compute_import_path root (barrelDirOf root cfg)
        (some cfg.aliases.components.filesystem) te.entry_path = some P →
        ∀ n ∈ te.export_names, n.data.isEmpty = false →
          stableTypePair (n, mkTypeLine n P))
    (H5 : (components.map (fun c => c.export_name)).Nodup)
    (H6 : ((type_exports.map (fun te => te.export_names)).flatten).Nodup) :
    render_component_barrel root cfg [] [] existing = none
    ∧ ∀ t1, render_component_barrel root cfg components type_exports existing = some t1 →
        render_component_barrel root cfg components type_exports t1 = none
        ∧ ∃ b : BarrelExports, t1 = b.render
            ∧ sortedMap b.components ∧ sortedMap b.types
            ∧ (∀ p ∈ b.components, lineInserts p.2 = ([(p.1, p.2)], []))
            ∧ (∀ p ∈ b.types, lineInserts p.2 = ([], [(p.1, p.2)])) := by
  refine ⟨rfl, ?_⟩
  intro t1 ht1
  rw [render_unfold] at ht1
  by_cases hemp : (components.isEmpty && type_exports.isEmpty) = true
  · rw [if_pos hemp] at ht1; cases ht1
  rw [if_neg hemp] at ht1
  by_cases hcond : ((renderState root cfg components type_exports existing).2
      && ! (renderState root cfg components type_exports existing).1.isEmpty) = true
  · rw [if_pos hcond] at ht1
    have ht1' : (renderState root cfg components type_exports existing).1.render = t1 :=
      Option.some.inj ht1
    -- facts about the first render's final map
    have hcompseq : (renderState root cfg components type_exports existing).1.components =
        ((components.foldl (applyComponentExport root (barrelDirOf root cfg) cfg)
          (parse_export_map existing, false)).1).components := by
      simp only [renderState]
      exact foldTypes_comps_eq _ _ _ _ _
    have hcprops := foldComps_sorted_stable root (barrelDirOf root cfg) cfg components
      (parse_export_map existing, false) (parse_sorted existing).1 H1 H3
    have hst1types : ((components.foldl
        (applyComponentExport root (barrelDirOf root cfg) cfg)
        (parse_export_map existing, false)).1).types =
        (parse_export_map existing).types :=
      foldComps_types_eq _ _ _ _ _
    have htprops' := foldTypes_sorted_stable root (barrelDirOf root cfg) cfg type_exports
      (components.foldl (applyComponentExport root (barrelDirOf root cfg) cfg)
        (parse_export_map existing, false))
      (by rw [hst1types]; exact (parse_sorted existing).2)
      (by rw [hst1types]; exact H2) H4
    have hMsc : sortedMap (renderState root cfg components type_exports existing).1.components := by
      rw [hcompseq]; exact hcprops.1
    have hMst : sortedMap (renderState root cfg components type_exports existing).1.types := by
      simp only [renderState]
      exact htprops'.1
    have hMstC : ∀ p ∈ (renderState root cfg components type_exports existing).1.components,
        stableCompPair p := by
      rw [hcompseq]; exact hcprops.2
    have hMstT : ∀ p ∈ (renderState root cfg components type_exports existing).1.types,
        stableTypePair p := by
      simp only [renderState]
      exact htprops'.2
    have hlookC : ∀ c ∈ components, ∀ P, compute_import_path root (barrelDirOf root cfg)
        (some cfg.aliases.components.filesystem) c.entry_path = some P →
        alistLookup (renderState root cfg components type_exports existing).1.components
          c.export_name = some (mkComponentLine c.export_name P) := by
      intro c hc P hP
      rw [hcompseq]
      exact foldComps_lookup root (barrelDirOf root cfg) cfg components _ H5 c hc P hP
    have hlookT : ∀ te ∈ type_exports, ∀ P, compute_import_path root (barrelDirOf root cfg)
        (some cfg.aliases.components.filesystem) te.entry_path = some P →
        ∀ n ∈ te.export_names, n.data.isEmpty = false →
        alistLookup (renderState root cfg components type_exports existing).1.types n =
          some (mkTypeLine n P) := by
      intro te hte P hP n hn hne
      simp only [renderState]
      exact foldTypes_lookup root (barrelDirOf root cfg) cfg type_exports _ H6
        te hte P hP n hn hne
    have hparse : parse_export_map t1 =
        (renderState root cfg components type_exports existing).1 := by
      rw [← ht1']
      exact parse_render_id _ hMsc hMst hMstC hMstT
    -- the second render makes no change
    have hsecond : renderState root cfg components type_exports t1 =
        ((renderState root cfg components type_exports existing).1, false) := by
      simp only [renderState]
      rw [hparse]
      rw [foldComps_const root (barrelDirOf root cfg) cfg _ components hlookC]
      exact foldTypes_const root (barrelDirOf root cfg) cfg _ type_exports hlookT
    constructor
    · rw [render_unfold, if_neg hemp, hsecond]
      rfl
    · exact ⟨(renderState root cfg components type_exports existing).1,
        ht1'.symm, hMsc, hMst,
        fun p hp => (hMstC p hp).1, fun p hp => (hMstT p hp).1⟩
  · rw [if_neg hcond] at ht1
    cases ht1

/-- Workspace root `/ws` for the concrete barrel evaluations. -/
def cexRoot : List PComponent := [PComponent.rootDir, PComponent.normal "ws"]

/-- A small concrete configuration: components under `lib`, barrel at
`lib/index.ts`. -/
def cexConfig : Config :=
  { aliases :=
      { components := ⟨"lib", "$lib"⟩
        helpers := ⟨"lib/helpers", "$lib/helpers"⟩
        utils := ⟨"lib/utils", "$lib/utils"⟩
        assets := ⟨"lib/assets", "$lib/assets"⟩ }
    exports := { components := ⟨"lib/index.ts"⟩ } }

/-- An entry file under the components alias. -/
def goodEntry : List PComponent :=
  [PComponent.rootDir, PComponent.normal "ws", PComponent.normal "lib",
    PComponent.normal "x.svelte"]

/-- A component export whose name carries a leading space — accepted
by the renderer, but not stable under re-parsing. -/
def cexComponents : List ComponentExportSpec :=
  [ComponentExportSpec.mk " A" goodEntry]

/-- The same export with a well-formed name. -/
def goodComponents : List ComponentExportSpec :=
  [ComponentExportSpec.mk "A" goodEntry]

instance (v : String) : Decidable (goodLine v) :=
  inferInstanceAs (Decidable (v.data.contains '\n' = false ∧ v.data.getLast? ≠ some '\r'))

instance (p : String × String) : Decidable (stableCompPair p) :=
  inferInstanceAs (Decidable (lineInserts p.2 = ([(p.1, p.2)], []) ∧ goodLine p.2))

instance (p : String × String) : Decidable (stableTypePair p) :=
  inferInstanceAs (Decidable (lineInserts p.2 = ([], [(p.1, p.2)]) ∧ goodLine p.2))

set_option maxRecDepth 8000

/-- C8 (counterexample): with the export name `" A"` (leading space),
rendering against an empty barrel produces a line whose re-parse trims
the name to `"A"`; re-rendering the same export against that output
inserts a second entry under the key `" A"` and returns `Some` again —
rendering is not idempotent for every export list, refuting the
universally quantified claim. -/
theorem C8_counterexample_not_idempotent :
    render_component_barrel cexRoot cexConfig cexComponents [] "" =
      some "export \x7b default as  A \x7d from \"./x.svelte\";\n"
    ∧ render_component_barrel cexRoot cexConfig cexComponents []
        "export \x7b default as  A \x7d from \"./x.svelte\";\n" ≠ none :=
  ⟨by decide, by decide⟩

/-- C8 (witness): the amended idempotence theorem applied to the
concrete well-formed export `"A"`: re-rendering against the first
render's output returns `None`. -/
theorem C8_amended_render_idempotent_witness :
    render_component_barrel cexRoot cexConfig goodComponents []
      "export \x7b default as A \x7d from \"./x.svelte\";\n" = none :=
  ((C8_amended_render_idempotent cexRoot cexConfig goodComponents [] ""
      (by decide) (by decide)
      (by
        intro c hc P hP
        simp only [goodComponents, List.mem_singleton] at hc
        subst hc
        have hv : compute_import_path cexRoot (barrelDirOf cexRoot cexConfig)
            (some cexConfig.aliases.components.filesystem)
            (ComponentExportSpec.mk "A" goodEntry).entry_path =
            some "./x.svelte" := by decide
        rw [hv] at hP
        injection hP with h
        subst h
        decide)
      (by intro te hte; cases hte)
      (by decide) (by decide)).2
    "export \x7b default as A \x7d from \"./x.svelte\";\n" (by decide)).1

/-! ### Registry client and cache (`registry.rs`, `cache.rs`) -/

/-- `RegistryError` (`registry.rs`). -/
inductive RegistryError where
  | network (msg : String)
  | notFound (url : String)
  | parse (msg : String)
  | assetNotFound (path : String)
  | decode (path : String) (msg : String)
deriving DecidableEq, Repr

/-- The catalog (`registry.rs`, struct `Registry`); the slug-keyed
component `HashMap` is an association list. -/
structure Registry where
  name : String
  version : String
  description : Option String
  baseDependencies : List (String × String)
  baseDevDependencies : List (String × String)
  components : List (String × ComponentRecord)
deriving DecidableEq, Repr

/-- Manifest bytes, modelled by their serde parse outcome (serde_json
is an external crate): either bytes that parse to a `Registry` or
bytes that fail to parse. -/
inductive RegBytes where
  | valid (r : Registry)
  | invalid (msg : String)
deriving DecidableEq, Repr

/-- `CachedData` (`cache.rs`): payload plus the freshness flag. -/
structure CachedData where
  bytes : RegBytes
  fresh : Bool
deriving DecidableEq, Repr

/-- The 30-day stale ceiling (`cache.rs`, `STALE_MAX_AGE_MS`). -/
def STALE_MAX_AGE_MS : Nat := 2592000000

/-- `RegistryCache::read_file` (`cache.rs`): a cache entry is its age
in milliseconds plus its payload; an entry within the TTL is fresh; a
stale entry within the 30-day ceiling is served only when the caller
allows stale reads; otherwise nothing.  A missing file is `none`
(unreadable-metadata failures are subsumed by the missing case). -/
def read_file (entry : Option (Nat × RegBytes)) (ttl : Nat)
    (allow_stale : Bool) : Option CachedData :=
  match entry with
  | none => none
  | some (age, bytes) =>
    if age ≤ ttl then some ⟨bytes, true⟩
    else if allow_stale && decide (age ≤ STALE_MAX_AGE_MS) then
      some ⟨bytes, false⟩
    else none

/-- `parse_registry_entry` (`registry.rs`). -/
def parse_registry_entry (entry : CachedData) : Except RegistryError Registry :=
  match entry.bytes with
  | RegBytes.valid r => Except.ok r
  | RegBytes.invalid msg => Except.error (RegistryError.parse msg)

/-- The observable outcome of the HTTP GET inside `fetch_remote_json`
(`reqwest` is an external crate): a transport error from `send()`, a
404 status, another error status, a successful body, or a body-read
failure. -/
inductive RemoteOutcome where
  | sendErr (msg : String)
  | notFound404
  | errorStatus
  | body (b : RegBytes)
  | bodyReadErr (msg : String)
deriving DecidableEq, Repr

/-- `fetch_remote_json` (`registry.rs`): a send failure is a network
error; a 404 is a hard not-found; any other error status is `Ok(None)`
(logged and swallowed); a successful response yields its bytes, and a
body-read failure is a network error. -/
def fetch_remote_json (url : String) (resp : RemoteOutcome) :
    Except RegistryError (Option RegBytes) :=
  match resp with
  | RemoteOutcome.sendErr msg => Except.error (RegistryError.network msg)
  | RemoteOutcome.notFound404 => Except.error (RegistryError.notFound url)
  | RemoteOutcome.errorStatus => Except.ok none
  | RemoteOutcome.body b => Except.ok (some b)
  | RemoteOutcome.bodyReadErr msg => Except.error (RegistryError.network msg)

/-- The inputs of one remote registry-manifest load: the manifest URL,
the network's behaviour, the cache entry (age and payload; `none` also
covers a client constructed without a cache), and the registry TTL. -/
structure RemoteWorld where
  url : String
  response : RemoteOutcome
  cacheEntry : Option (Nat × RegBytes)
  registryTtl : Nat
deriving DecidableEq, Repr

/-- `RegistryClient::load_registry_from_cache_with_fallback`
(`registry.rs`): a stale-allowed cache read, parsed; otherwise a
network error. -/
def load_registry_from_cache_with_fallback (w : RemoteWorld) :
    Except RegistryError Registry :=
  match read_file w.cacheEntry w.registryTtl true with
  | some entry => parse_registry_entry entry
  | none => Except.error (RegistryError.network "failed to fetch registry manifest")

/-- The fetch phase of `RegistryClient::load_registry` for the remote
backend: propagate fetch errors as-is; parse a fetched body (the
best-effort cache write has no observable effect on the result); fall
back to a stale cache read only when the fetch returned `Ok(None)`,
i.e. on a non-404 HTTP error status. -/
def load_registry_fetch (w : RemoteWorld) : Except RegistryError Registry :=
  match fetch_remote_json w.url w.response with
  | Except.error e => Except.error e
  | Except.ok (some bytes) =>
    (match bytes with
     | RegBytes.valid r => Except.ok r
     | RegBytes.invalid msg => Except.error (RegistryError.parse msg))
  | Except.ok none => load_registry_from_cache_with_fallback w

/-- `RegistryClient::load_registry` for the remote backend
(`registry.rs`): a fresh cache hit that parses returns immediately;
otherwise the fetch phase runs. -/
def load_registry_remote (w : RemoteWorld) : Except RegistryError Registry :=
  match read_file w.cacheEntry w.registryTtl false with
  | some entry =>
    (match parse_registry_entry entry with
     | Except.ok r => Except.ok r
     | Except.error _ => load_registry_fetch w)
  | none => load_registry_fetch w

/-- A minimal catalog for the concrete registry evaluations. -/
def c4Registry : Registry :=
  { name := "Motion Core", version := "0.1.0", description := none
    baseDependencies := [], baseDevDependencies := [], components := [] }

/-- A world whose live fetch fails at transport level while a stale
(but within 30 days) cached catalog exists: TTL ten minutes, entry
aged one hour. -/
def c4SendErrWorld : RemoteWorld :=
  { url := "https://motion-core.dev/registry/registry.json"
    response := RemoteOutcome.sendErr "connection refused"
    cacheEntry := some (3600000, RegBytes.valid c4Registry)
    registryTtl := 600000 }

/-- The same world when the server answers with a 500-class status. -/
def c4ErrorStatusWorld : RemoteWorld :=
  { url := "https://motion-core.dev/registry/registry.json"
    response := RemoteOutcome.errorStatus
    cacheEntry := some (3600000, RegBytes.valid c4Registry)
    registryTtl := 600000 }

/-- C4 (counterexample): a transport-level network error during the
live fetch propagates immediately — the stale cache read (which here
would succeed and yield the cached catalog within the 30-day ceiling)
is never attempted, contrary to the claim that a network error always
attempts the stale fallback first. -/
theorem C4_counterexample_send_error_skips_stale_cache :
    read_file c4SendErrWorld.cacheEntry c4SendErrWorld.registryTtl true =
      some ⟨RegBytes.valid c4Registry, false⟩
    ∧ load_registry_remote c4SendErrWorld =
        Except.error (RegistryError.network "connection refused") :=
  ⟨by decide, by rfl⟩

/-- C4 (amended): when the fresh cache read does not short-circuit the
load, the remote registry load behaves as follows: a non-404 HTTP
error status falls back to the stale-allowed cache read (returning the
cached catalog when a parseable entry within the 30-day ceiling
exists, and a network error when none does); a transport-level send
error propagates as a network error without consulting the stale
cache; and a 404 propagates as a hard not-found error, also without
any stale fallback. -/
theorem C4_amended_stale_fallback_only_for_error_status (w : RemoteWorld)
    (hfresh : read_file w.cacheEntry w.registryTtl false = none) :
    (w.response = RemoteOutcome.errorStatus →
      load_registry_remote w = load_registry_from_cache_with_fallback w)
    ∧ (∀ msg, w.response = RemoteOutcome.sendErr msg →
      load_registry_remote w = Except.error (RegistryError.network msg))
    ∧ (w.response = RemoteOutcome.notFound404 →
      load_registry_remote w = Except.error (RegistryError.notFound w.url))
    ∧ (∀ r age, w.cacheEntry = some (age, RegBytes.valid r) →
      w.registryTtl < age → age ≤ STALE_MAX_AGE_MS →
      w.response = RemoteOutcome.errorStatus →
      load_registry_remote w = Except.ok r)
    ∧ (read_file w.cacheEntry w.registryTtl true = none →
      w.response = RemoteOutcome.errorStatus →
      load_registry_remote w =
        Except.error (RegistryError.network "failed to fetch registry manifest")) := by
  have hload : load_registry_remote w = load_registry_fetch w := by
    rw [load_registry_remote, hfresh]
  refine ⟨?_, ?_, ?_, ?_, ?_⟩
  · intro hr
    rw [hload, load_registry_fetch, hr]
    rfl
  · intro msg hr
    rw [hload, load_registry_fetch, hr]
    rfl
  · intro hr
    rw [hload, load_registry_fetch, hr]
    rfl
  · intro r age hentry httl hmax hr
    rw [hload, load_registry_fetch, hr]
    show load_registry_from_cache_with_fallback w = Except.ok r
    rw [load_registry_from_cache_with_fallback, hentry]
    simp only [read_file]
    rw [if_neg (show ¬ age ≤ w.registryTtl by omega)]
    rw [if_pos (show (true && decide (age ≤ STALE_MAX_AGE_MS)) = true by
      rw [Bool.true_and]
      exact decide_eq_true hmax)]
    rfl
  · intro hstale hr
    rw [hload, load_registry_fetch, hr]
    show load_registry_from_cache_with_fallback w =
      Except.error (RegistryError.network "failed to fetch registry manifest")
    rw [load_registry_from_cache_with_fallback, hstale]

/-- C4 (witness): the amended theorem at the concrete error-status
world — the stale cached catalog is served. -/
theorem C4_amended_stale_fallback_witness :
    load_registry_remote c4ErrorStatusWorld = Except.ok c4Registry :=
  (C4_amended_stale_fallback_only_for_error_status c4ErrorStatusWorld
      (by decide)).2.2.2.1 c4Registry 3600000 rfl (by decide) (by decide) rfl

/-- Base64 component-asset values, modelled by their decode outcome
(the `base64` crate is external): either the decoded bytes or a decode
failure. -/
inductive AssetBytes where
  | valid (bytes : String)
  | invalid (msg : String)
deriving DecidableEq, Repr

/-- The state of a registry client with the static in-memory backend
(`RegistryClient::with_registry`): the catalog and the in-process
memoized component-file manifest (`component_manifest : RefCell`). -/
structure RegistryClientState where
  staticRegistry : Registry
  componentManifest : Option (List (String × AssetBytes))
deriving DecidableEq, Repr

/-- `RegistryClient::with_registry` (`registry.rs`): static backend,
no memoized manifest, no cache. -/
def RegistryClient.with_registry (registry : Registry) : RegistryClientState :=
  { staticRegistry := registry, componentManifest := none }

/-- `RegistryClient::preload_component_manifest`. -/
def preload_component_manifest (st : RegistryClientState)
    (manifest : List (String × AssetBytes)) : RegistryClientState :=
  { st with componentManifest := some manifest }

/-- `RegistryClient::load_component_manifest` for the static backend:
return the memoized manifest when present; otherwise the manifest is
the empty map, which is then memoized. -/
def load_component_manifest (st : RegistryClientState) :
    List (String × AssetBytes) × RegistryClientState :=
  match st.componentManifest with
  | some cache => (cache, st)
  | none => ([], { st with componentManifest := some [] })

/-- `HashMap::get` on the component manifest. -/
def assetLookup (m : List (String × AssetBytes)) (path : String) :
    Option AssetBytes :=
  match m.find? (fun e => e.1 == path) with
  | some e => some e.2
  | none => none

/-- `RegistryClient::fetch_component_file` (`registry.rs`): load the
manifest, look the path up (absent ⇒ asset-not-found), and base64
decode (invalid ⇒ decode error). -/
def fetch_component_file (st : RegistryClientState) (path : String) :
    Except RegistryError (String × RegistryClientState) :=
  let r := load_component_manifest st
  match assetLookup r.1 path with
  | none => Except.error (RegistryError.assetNotFound path)
  | some (AssetBytes.valid bytes) => Except.ok (bytes, r.2)
  | some (AssetBytes.invalid msg) => Except.error (RegistryError.decode path msg)

/-- C10: a registry client built over a static in-memory catalog and
never seeded via `preload_component_manifest` has the empty
component-file manifest, so `fetch_component_file` fails with
asset-not-found for every path and every catalog. -/
theorem C10_static_fetch_always_asset_not_found (registry : Registry)
    (path : String) :
    fetch_component_file (RegistryClient.with_registry registry) path =
      Except.error (RegistryError.assetNotFound path) := rfl

/-! ### The filesystem world and the apply engine (`operations/add.rs`,
`project.rs`, `pkg_manager.rs`) -/

/-- `PackageManagerKind` (`project.rs`). -/
inductive PackageManagerKind where
  | npm
  | pnpm
  | yarn
  | bun
  | unknown
deriving DecidableEq, Repr

/-- The dependency snapshot of the workspace `package.json`
(`operations/add.rs`, struct `PackageSnapshot`); the serde `HashMap`s
are association lists. -/
structure PackageSnapshot where
  dependencies : List (String × String)
  devDependencies : List (String × String)
deriving DecidableEq, Repr

/-- `PackageSnapshot::spec`: runtime dependencies first, then dev. -/
def PackageSnapshot.spec (s : PackageSnapshot) (name : String) : Option String :=
  match s.dependencies.find? (fun e => e.1 == name) with
  | some e => some e.2
  | none =>
    match s.devDependencies.find? (fun e => e.1 == name) with
    | some e => some e.2
    | none => none

/-- The observable filesystem and process state an `add` run touches:
file contents keyed by component-list path, the outcome of reading and
parsing the workspace `package.json` (`none`: absent or unreadable;
`some none`: present but unparseable — serde is external, so the parse
outcome is part of the world; `some (some s)`: the parsed snapshot),
the directories passed to `fs::create_dir_all`, and the
package-manager install invocations (`InstallPlan::run`) with their
working directory and package list. -/
structure World where
  fs : List (List PComponent × String)
  packageJson : Option (Option PackageSnapshot)
  dirsCreated : List (List PComponent)
  installsRun : List (PackageManagerKind × List PComponent × List String)
deriving DecidableEq, Repr

/-- `Path::exists` / `fs::read` over the world: the contents of the
file at a path, when present. -/
def fsLookup (fs : List (List PComponent × String)) (p : List PComponent) :
    Option String :=
  match fs.find? (fun e => e.1 == p) with
  | some e => some e.2
  | none => none

/-- `fs::write`: replace the contents at a path, appending the file
when absent. -/
def fsWrite (fs : List (List PComponent × String)) (p : List PComponent)
    (contents : String) : List (List PComponent × String) :=
  match fs with
  | [] => [(p, contents)]
  | e :: rest =>
    if e.1 = p then (p, contents) :: rest else e :: fsWrite rest p contents

/-- `FileStatus` (`operations/add.rs`). -/
inductive FileStatus where
  | created
  | updated
  | unchanged
  | skipped
deriving DecidableEq, Repr

/-- `PlannedFileStatus` (`operations/add.rs`). -/
inductive PlannedFileStatus where
  | create
  | update
  | unchanged
deriving DecidableEq, Repr

/-- `PlannedFile` (`operations/add.rs`); byte vectors are opaque
strings. -/
structure PlannedFile where
  component_name : String
  registry_path : String
  destination : List PComponent
  contents : String
  existing_contents : Option String
  status : PlannedFileStatus
  apply : Bool
deriving DecidableEq, Repr

/-- `ApplyOptions` (`operations/add.rs`). -/
structure ApplyOptions where
  dry_run : Bool
deriving DecidableEq, Repr

/-- `FileApplyReport` (`operations/add.rs`). -/
structure FileApplyReport where
  destination : List PComponent
  component_name : String
  status : FileStatus
deriving DecidableEq, Repr

/-- `DependencyAction` (`operations/add.rs`). -/
inductive DependencyAction where
  | alreadyInstalled
  | installed (pkgs : List String)
  | manual (pkgs : List String)
  | dryRun (pkgs : List String)
  | skipped (reason : String)
deriving DecidableEq, Repr

/-- `ApplyOutcome` (`operations/add.rs`). -/
structure ApplyOutcome where
  files : List FileApplyReport
  exports_updated : Bool
  runtime : DependencyAction
  dev : DependencyAction
deriving DecidableEq, Repr

/-- `AddPlan` (`operations/add.rs`); the slug-keyed `component_map`
`HashMap` is an association list and the requirement `BTreeMap`s are
sorted association lists. -/
structure AddPlan where
  config : Config
  config_path : List PComponent
  workspace_root : List PComponent
  requested_components : List String
  component_map : List (String × ComponentRecord)
  install_order : List String
  planned_files : List PlannedFile
  installed_components : List ComponentExportSpec
  registered_type_exports : List TypeExportSpec
  runtime_requirements : List (String × String)
  dev_requirements : List (String × String)
  barrel_path : List PComponent
  existing_barrel : String
  package_manager : PackageManagerKind
  package_snapshot : PackageSnapshot
  missing_entry_components : List String
deriving DecidableEq, Repr

/-- `write_component_file` (`operations/add.rs`): the parent directory
is created only outside dry-run; a dry run reports the would-be status
from the current disk contents without writing; a real run writes
unless the contents already match.  Reads of an existing file cannot
fail here: every present file's contents are in the world. -/
def write_component_file (path : List PComponent) (contents : String)
    (dry_run : Bool) (w : World) : FileStatus × World :=
  let w1 :=
    match pathParent path with
    | some parent =>
      if dry_run then w else { w with dirsCreated := parent :: w.dirsCreated }
    | none => w
  match fsLookup w1.fs path with
  | some existing =>
    if dry_run then
      (if existing = contents then FileStatus.unchanged else FileStatus.updated, w1)
    else if existing = contents then (FileStatus.unchanged, w1)
    else (FileStatus.updated, { w1 with fs := fsWrite w1.fs path contents })
  | none =>
    if dry_run then (FileStatus.created, w1)
    else (FileStatus.created, { w1 with fs := fsWrite w1.fs path contents })

/-- The file loop of `apply` (`operations/add.rs`): a file with
`apply = false` reports `Skipped` and takes no action; the rest are
written via `write_component_file`. -/
def applyFiles (dry_run : Bool) : List PlannedFile → World →
    List FileApplyReport × World
  | [], w => ([], w)
  | file :: rest, w =>
    if file.apply then
      let r := write_component_file file.destination file.contents dry_run w
      let rs := applyFiles dry_run rest r.2
      (⟨file.destination, file.component_name, r.1⟩ :: rs.1, rs.2)
    else
      let rs := applyFiles dry_run rest w
      (⟨file.destination, file.component_name, FileStatus.skipped⟩ :: rs.1, rs.2)

/-- `diff_dependencies` (`operations/add.rs`): the `name@version`
strings of the required packages whose installed spec does not satisfy
the requirement, in the requirement map's ascending key order (which
the sorted association list provides). -/
def diff_dependencies (requirements : List (String × String))
    (snapshot : PackageSnapshot) : List String :=
  (requirements.filter
    (fun e => ! spec_satisfies (snapshot.spec e.1) e.2)).map
    (fun e => e.1 ++ "@" ++ e.2)

/-- `handle_dependencies` (`operations/add.rs`): nothing missing ⇒
already installed; unknown manager ⇒ manual list; dry run ⇒ dry-run
list; otherwise the install plan runs (recorded in the world; the
spawned package-manager process is assumed to succeed) and the
installed list is reported. -/
def handle_dependencies (requirements : List (String × String))
    (snapshot : PackageSnapshot) (package_manager : PackageManagerKind)
    (workspace_root : List PComponent) (dry_run : Bool) (w : World) :
    DependencyAction × World :=
  let installs := diff_dependencies requirements snapshot
  if installs.isEmpty then (DependencyAction.alreadyInstalled, w)
  else if package_manager = PackageManagerKind.unknown then
    (DependencyAction.manual installs, w)
  else if dry_run then (DependencyAction.dryRun installs, w)
  else
    (DependencyAction.installed installs,
      { w with installsRun :=
          (package_manager, workspace_root, installs) :: w.installsRun })

/-- `apply` (`operations/add.rs`): write every planned file, re-render
the barrel and (outside dry-run) write it after creating its parent
directory, then handle runtime and dev dependencies in that order. -/
def applyAdd (plan : AddPlan) (options : ApplyOptions) (w : World) :
    ApplyOutcome × World :=
  let fr := applyFiles options.dry_run plan.planned_files w
  let br :=
    match render_component_barrel plan.workspace_root plan.config
        plan.installed_components plan.registered_type_exports
        plan.existing_barrel with
    | some rendered =>
      if options.dry_run then (true, fr.2)
      else
        let w2 :=
          match pathParent plan.barrel_path with
          | some parent => { fr.2 with dirsCreated := parent :: fr.2.dirsCreated }
          | none => fr.2
        (true, { w2 with fs := fsWrite w2.fs plan.barrel_path rendered })
    | none => (false, fr.2)
  let rd := handle_dependencies plan.runtime_requirements plan.package_snapshot
    plan.package_manager plan.workspace_root options.dry_run br.2
  let dd := handle_dependencies plan.dev_requirements plan.package_snapshot
    plan.package_manager plan.workspace_root options.dry_run rd.2
  ({ files := fr.1, exports_updated := br.1, runtime := rd.1, dev := dd.1 },
    dd.2)

/-- The per-file status a dry run reports, as derived from the current
disk contents. -/
def dryRunStatus (w : World) (file : PlannedFile) : FileStatus :=
  if file.apply then
    match fsLookup w.fs file.destination with
    | some existing =>
      if existing = file.contents then FileStatus.unchanged
      else FileStatus.updated
    | none => FileStatus.created
  else FileStatus.skipped

theorem write_component_file_dry (path : List PComponent) (contents : String)
    (w : World) :
    write_component_file path contents true w =
      ((match fsLookup w.fs path with
        | some existing =>
          if existing = contents then FileStatus.unchanged
          else FileStatus.updated
        | none => FileStatus.created), w) := by
  rw [write_component_file]
  cases hp : pathParent path <;> cases hf : fsLookup w.fs path <;> simp [hp, hf]

theorem applyFiles_dry (files : List PlannedFile) (w : World) :
    applyFiles true files w =
      (files.map (fun file =>
        ⟨file.destination, file.component_name, dryRunStatus w file⟩), w) := by
  induction files with
  | nil => rfl
  | cons file rest ih =>
    rw [applyFiles]
    cases ha : file.apply <;>
      simp [ha, ih, write_component_file_dry, dryRunStatus]

theorem handle_dependencies_dry (requirements : List (String × String))
    (snapshot : PackageSnapshot) (pm : PackageManagerKind)
    (root : List PComponent) (w : World) :
    (handle_dependencies requirements snapshot pm root true w).2 = w
    ∧ ∀ pkgs, (handle_dependencies requirements snapshot pm root true w).1 ≠
        DependencyAction.installed pkgs := by
  unfold handle_dependencies
  by_cases h1 : (diff_dependencies requirements snapshot).isEmpty = true
  · simp [h1]
  · by_cases h2 : pm = PackageManagerKind.unknown
    · simp [h1, h2]
    · simp [h1, h2]

theorem applyAdd_dry (plan : AddPlan) (w : World) :
    applyAdd plan ⟨true⟩ w =
      ({ files := plan.planned_files.map (fun file =>
            ⟨file.destination, file.component_name, dryRunStatus w file⟩)
         exports_updated := (render_component_barrel plan.workspace_root
            plan.config plan.installed_components plan.registered_type_exports
            plan.existing_barrel).isSome
         runtime := (handle_dependencies plan.runtime_requirements
            plan.package_snapshot plan.package_manager plan.workspace_root
            true w).1
         dev := (handle_dependencies plan.dev_requirements
            plan.package_snapshot plan.package_manager plan.workspace_root
            true w).1 }, w) := by
  have hrt := (handle_dependencies_dry plan.runtime_requirements
    plan.package_snapshot plan.package_manager plan.workspace_root w).1
  have hdv := (handle_dependencies_dry plan.dev_requirements
    plan.package_snapshot plan.package_manager plan.workspace_root w).1
  simp only [applyAdd, applyFiles_dry]
  cases hb : render_component_barrel plan.workspace_root plan.config
      plan.installed_components plan.registered_type_exports
      plan.existing_barrel <;>
    simp [hb, hrt, hdv]

/-- C9: applying an add plan with `dry_run = true` leaves the world
untouched — no file is written, no directory is created, no
package-manager install is run — while the per-file reports still
derive their status from the current disk contents (`Skipped` for
files marked not to apply, otherwise `Created` for an absent
destination and `Unchanged`/`Updated` for matching/differing
contents), and neither dependency action reports an install as
performed. -/
theorem C9_dry_run_applies_nothing (plan : AddPlan) (w : World)
    (options : ApplyOptions) (hdry : options.dry_run = true) :
    (applyAdd plan options w).2 = w
    ∧ (applyAdd plan options w).1.files = plan.planned_files.map (fun file =>
        ⟨file.destination, file.component_name, dryRunStatus w file⟩)
    ∧ (∀ pkgs, (applyAdd plan options w).1.runtime ≠
        DependencyAction.installed pkgs)
    ∧ (∀ pkgs, (applyAdd plan options w).1.dev ≠
        DependencyAction.installed pkgs) := by
  have hopt : options = ⟨true⟩ := by
    cases options
    simpa using hdry
  rw [hopt, applyAdd_dry]
  exact ⟨rfl, rfl,
    (handle_dependencies_dry plan.runtime_requirements plan.package_snapshot
      plan.package_manager plan.workspace_root w).2,
    (handle_dependencies_dry plan.dev_requirements plan.package_snapshot
      plan.package_manager plan.workspace_root w).2⟩

/-- A planned component file for the concrete dry-run evaluation. -/
def c9File : PlannedFile :=
  { component_name := "button"
    registry_path := "components/button/Button.svelte"
    destination := cexRoot ++ [PComponent.normal "lib", PComponent.normal "Button.svelte"]
    contents := "<script></script>\n"
    existing_contents := none
    status := PlannedFileStatus.create
    apply := true }

/-- A small concrete add plan: one applied file, one skipped file, one
missing runtime requirement. -/
def c9Plan : AddPlan :=
  { config := cexConfig
    config_path := cexRoot ++ [PComponent.normal "motion-core.json"]
    workspace_root := cexRoot
    requested_components := ["button"]
    component_map := []
    install_order := ["button"]
    planned_files := [c9File, { c9File with apply := false }]
    installed_components := []
    registered_type_exports := []
    runtime_requirements := [("motion", "^12.0.0")]
    dev_requirements := []
    barrel_path := cexRoot ++ [PComponent.normal "lib", PComponent.normal "index.ts"]
    existing_barrel := ""
    package_manager := PackageManagerKind.pnpm
    package_snapshot := { dependencies := [], devDependencies := [] }
    missing_entry_components := [] }

/-- An empty workspace world with a parsed empty `package.json`. -/
def c9World : World :=
  { fs := []
    packageJson := some (some { dependencies := [], devDependencies := [] })
    dirsCreated := [], installsRun := [] }

/-- C9 (witness): the dry-run theorem applied at the concrete plan and
world, with the no-install clause instantiated at the one missing
package. -/
theorem C9_dry_run_applies_nothing_witness :
    (applyAdd c9Plan ⟨true⟩ c9World).2 = c9World
    ∧ (applyAdd c9Plan ⟨true⟩ c9World).1.files =
        c9Plan.planned_files.map (fun file =>
          ⟨file.destination, file.component_name, dryRunStatus c9World file⟩)
    ∧ (applyAdd c9Plan ⟨true⟩ c9World).1.runtime ≠
        DependencyAction.installed ["motion@^12.0.0"] :=
  ⟨(C9_dry_run_applies_nothing c9Plan c9World ⟨true⟩ rfl).1,
   (C9_dry_run_applies_nothing c9Plan c9World ⟨true⟩ rfl).2.1,
   (C9_dry_run_applies_nothing c9Plan c9World ⟨true⟩ rfl).2.2.1
     ["motion@^12.0.0"]⟩

/-! ### The core planning operation (`operations/add.rs`,
`context.rs`, `project.rs`) -/

/-- `RegistryComponent` (`registry.rs`). -/
structure RegistryComponent where
  slug : String
  component : ComponentRecord
deriving DecidableEq, Repr

/-- Ordered insertion for `sort_by(|a, b| a.slug.cmp(&b.slug))`. -/
def insertBySlug (e : RegistryComponent) :
    List RegistryComponent → List RegistryComponent
  | [] => [e]
  | x :: rest =>
    if strLt x.slug e.slug then x :: insertBySlug e rest else e :: x :: rest

/-- Insertion sort ascending by slug — the observable result of the
source's stable `sort_by` (catalog slugs are unique `HashMap` keys, so
ties do not arise). -/
def sortBySlug : List RegistryComponent → List RegistryComponent
  | [] => []
  | e :: rest => insertBySlug e (sortBySlug rest)

/-- `RegistryClient::list_components` for the static backend
(`registry.rs`): `load_registry` clones the static catalog, whose
entries are then sorted ascending by slug. -/
def list_components (st : RegistryClientState) :
    Except RegistryError (List RegistryComponent) :=
  Except.ok (sortBySlug (st.staticRegistry.components.map
    (fun e => { slug := e.1, component := e.2 })))

/-- `Path::exists` of `dir/name` for a plain file name. -/
def lockfileAt (fs : List (List PComponent × String)) (dir : List PComponent)
    (name : String) : Bool :=
  (fsLookup fs (dir ++ [PComponent.normal name])).isSome

/-- The upward walk of `detect_package_manager` (`project.rs`).  The
fuel argument only bounds the number of `Path::parent` steps; since
`pathParent` strictly shortens the component list, a fuel of one more
than the list length is never exhausted. -/
def detectLoop (fs : List (List PComponent × String)) :
    Nat → List PComponent → PackageManagerKind
  | 0, _ => PackageManagerKind.unknown
  | fuel + 1, current =>
    if lockfileAt fs current "pnpm-lock.yaml" then PackageManagerKind.pnpm
    else if lockfileAt fs current "yarn.lock" then PackageManagerKind.yarn
    else if lockfileAt fs current "bun.lockb" || lockfileAt fs current "bun.lock"
      then PackageManagerKind.bun
    else if lockfileAt fs current "package-lock.json" then PackageManagerKind.npm
    else
      match pathParent current with
      | some parent => detectLoop fs fuel parent
      | none => PackageManagerKind.unknown

/-- `detect_package_manager` (`project.rs`). -/
def detect_package_manager (fs : List (List PComponent × String))
    (root : List PComponent) : PackageManagerKind :=
  detectLoop fs (root.length + 1) root

/-- `PackageSnapshot::load` (`operations/add.rs`): reading or parsing
the workspace `package.json` can fail; the outcome is the world's
`packageJson` field, and the error texts are the source's `context`
messages. -/
def PackageSnapshot.load (w : World) : Except String PackageSnapshot :=
  match w.packageJson with
  | none => Except.error "failed to read package.json"
  | some none => Except.error "failed to parse package.json for dependency analysis"
  | some (some s) => Except.ok s

/-- `AddError` (`operations/add.rs`); the unreached `Workspace` and
`Io` sources of the modelled paths carry their message strings. -/
inductive AddError where
  | missingConfig (path : List PComponent)
  | componentNotFound (slug : String)
  | registryErr (e : RegistryError)
  | configErr (msg : String)
  | ioErr (path : List PComponent) (msg : String)
  | other (msg : String)
deriving DecidableEq, Repr

/-- `AddOptions` (`operations/add.rs`). -/
structure AddOptions where
  components : List String
deriving DecidableEq, Repr

/-- `CommandContext` (`context.rs`): workspace root, config path, the
registry client, and the outcome of `try_load_config` on the config
path (`none`: the file is absent, so `load_config` yields `Ok(None)`;
`some none`: present but unreadable or unparseable, a config error;
`some (some c)`: the parsed configuration — file reading and serde are
external). -/
structure CommandContext where
  workspace_root : List PComponent
  config_path : List PComponent
  registry : RegistryClientState
  configFile : Option (Option Config)
deriving DecidableEq, Repr

/-- `CommandContext::load_config` / `try_load_config` (`config.rs`). -/
def load_config (ctx : CommandContext) : Except String (Option Config) :=
  match ctx.configFile with
  | none => Except.ok none
  | some none => Except.error "failed to parse motion-core.json"
  | some (some c) => Except.ok (some c)

/-- `is_entry_file` (`operations/add.rs`). -/
def is_entry_file (file : ComponentFileRecord) : Bool :=
  file.kind == some "entry"

/-- `is_svelte_file` (`operations/add.rs`): `rsplit('/').next()` is
the last `/`-separated piece of the registry path; the check is for a
`.svelte` suffix. -/
def is_svelte_file (file : ComponentFileRecord) : Bool :=
  match (strSplitChar '/' file.path).getLast? with
  | some piece => ".svelte".data.isSuffixOf piece.data
  | none => false

/-- ASCII alphanumeric test (`char::is_ascii_alphanumeric`). -/
def isAsciiAlnum (c : Char) : Bool :=
  decide (97 ≤ c.toNat ∧ c.toNat ≤ 122)
    || decide (65 ≤ c.toNat ∧ c.toNat ≤ 90)
    || decide (48 ≤ c.toNat ∧ c.toNat ≤ 57)

/-- `str::split` on every non-ASCII-alphanumeric character: empty
segments are kept (the caller filters them). -/
def splitNonAlnum : List Char → List (List Char)
  | [] => [[]]
  | c :: rest =>
    let r := splitNonAlnum rest
    if isAsciiAlnum c then
      match r with
      | [] => [[c]]
      | seg :: segs => (c :: seg) :: segs
    else [] :: r

/-- `char::to_ascii_uppercase`. -/
def asciiUpper (c : Char) : Char :=
  if 97 ≤ c.toNat ∧ c.toNat ≤ 122 then Char.ofNat (c.toNat - 32) else c

/-- `format_export_name` (`operations/add.rs`): split on
non-ASCII-alphanumeric characters, drop empty segments, uppercase the
first character of each segment, and concatenate. -/
def format_export_name (identifier : String) : String :=
  String.mk (((splitNonAlnum identifier.data).filter
      (fun seg => ! seg.isEmpty)).foldl
    (fun acc seg =>
      acc ++ match seg with
      | [] => []
      | c :: rest => asciiUpper c :: rest) [])

/-- The extension cut of `Path::file_stem`: drop everything from the
last `.` on; a name without `.` is unchanged. -/
def cutAtLastDot (l : List Char) : List Char :=
  match l.reverse.dropWhile (fun c => c ≠ '.') with
  | [] => l
  | _ :: after => after.reverse

/-- `Path::file_stem` on a file name's characters: a leading dot never
starts an extension. -/
def fileStemOf : List Char → List Char
  | [] => []
  | first :: rest => first :: cutAtLastDot rest

/-- `entry_export_name` (`operations/add.rs`): the formatted slug for
the first entry; later entries use the formatted file stem of the
entry path, falling back to `slug_index` when the path has no file
name. -/
def entry_export_name (slug : String) (entry_path : List PComponent)
    (index : Nat) : String :=
  if index = 0 then format_export_name slug
  else
    match entry_path.getLast? with
    | some (PComponent.normal s) => format_export_name (String.mk (fileStemOf s.data))
    | _ => format_export_name (slug ++ "_" ++ toString index)

/-- The per-file accumulator of the planning loop. -/
structure FileAcc where
  registry : RegistryClientState
  planned : List PlannedFile
  type_exports : List TypeExportSpec
  entry_paths : List (List PComponent)
  fallback_entry : Option (List PComponent)
deriving Repr

/-- The per-file half of the planning loop (`operations/add.rs`,
`for file in &record.files`): fetch the file's contents through the
registry client (threading its memo state), resolve the destination,
read any existing contents from the world, classify the planned
status, and track entry candidates and type exports.  Reads of an
existing destination cannot fail here: every present file's contents
are in the world. -/
def planFilesLoop (w : World) (config : Config)
    (workspace_root : List PComponent) (record : ComponentRecord) :
    List ComponentFileRecord → FileAcc → Except AddError FileAcc
  | [], acc => Except.ok acc
  | file :: rest, acc =>
    match fetch_component_file acc.registry file.path with
    | Except.error e => Except.error (AddError.registryErr e)
    | Except.ok (contents, reg') =>
      let destination := resolve_component_destination workspace_root config file
      let existing_contents := fsLookup w.fs destination
      let status :=
        match existing_contents with
        | none => PlannedFileStatus.create
        | some current =>
          if current = contents then PlannedFileStatus.unchanged
          else PlannedFileStatus.update
      let planned : PlannedFile :=
        { component_name := record.name, registry_path := file.path
          destination := destination, contents := contents
          existing_contents := existing_contents, status := status
          apply := true }
      let entry_paths :=
        if is_entry_file file then acc.entry_paths ++ [destination]
        else acc.entry_paths
      let fallback_entry :=
        if acc.fallback_entry.isNone && is_svelte_file file then some destination
        else acc.fallback_entry
      let type_exports :=
        if file.typeExports.isEmpty then acc.type_exports
        else acc.type_exports ++
          [{ export_names := file.typeExports, entry_path := destination }]
      planFilesLoop w config workspace_root record rest
        { registry := reg', planned := acc.planned ++ [planned]
          type_exports := type_exports, entry_paths := entry_paths
          fallback_entry := fallback_entry }

/-- The accumulator of the per-slug planning loop. -/
structure PlanAcc where
  registry : RegistryClientState
  runtime_requirements : List (String × String)
  dev_requirements : List (String × String)
  installed_components : List ComponentExportSpec
  registered_type_exports : List TypeExportSpec
  planned_files : List PlannedFile
  missing_entry_components : List String
deriving Repr

/-- One iteration of `for slug in install_order`
(`operations/add.rs`): look the record up, extend the requirement
maps, plan its files, and derive the component's export specs (with
the svelte-file fallback entry, and the missing-entry list when no
entry exists). -/
def planSlug (w : World) (config : Config) (workspace_root : List PComponent)
    (component_map : List (String × ComponentRecord)) (slug : String)
    (acc : PlanAcc) : Except AddError PlanAcc :=
  match lookupSlug component_map slug with
  | none => Except.error (AddError.componentNotFound slug)
  | some record =>
    let runtime := record.dependencies.foldl
      (fun m e => mapInsert m e.1 e.2) acc.runtime_requirements
    let dev := record.devDependencies.foldl
      (fun m e => mapInsert m e.1 e.2) acc.dev_requirements
    match planFilesLoop w config workspace_root record record.files
        { registry := acc.registry, planned := [], type_exports := []
          entry_paths := [], fallback_entry := none } with
    | Except.error e => Except.error e
    | Except.ok facc =>
      let entry_paths :=
        if facc.entry_paths.isEmpty then
          match facc.fallback_entry with
          | some entry => [entry]
          | none => []
        else facc.entry_paths
      if entry_paths.isEmpty then
        Except.ok { acc with
          registry := facc.registry
          runtime_requirements := runtime
          dev_requirements := dev
          planned_files := acc.planned_files ++ facc.planned
          registered_type_exports :=
            acc.registered_type_exports ++ facc.type_exports
          missing_entry_components :=
            acc.missing_entry_components ++ [record.name] }
      else
        Except.ok { acc with
          registry := facc.registry
          runtime_requirements := runtime
          dev_requirements := dev
          planned_files := acc.planned_files ++ facc.planned
          registered_type_exports :=
            acc.registered_type_exports ++ facc.type_exports
          installed_components := acc.installed_components ++
            entry_paths.enum.map (fun e =>
              ({ export_name := entry_export_name slug e.2 e.1
                 entry_path := e.2 } : ComponentExportSpec)) }

/-- The per-slug planning loop. -/
def planSlugsLoop (w : World) (config : Config)
    (workspace_root : List PComponent)
    (component_map : List (String × ComponentRecord)) :
    List String → PlanAcc → Except AddError PlanAcc
  | [], acc => Except.ok acc
  | slug :: rest, acc =>
    match planSlug w config workspace_root component_map slug acc with
    | Except.error e => Except.error e
    | Except.ok acc' => planSlugsLoop w config workspace_root component_map rest acc'

/-- `plan` (`operations/add.rs`): load the config (absent ⇒ missing
config), list and key the catalog, resolve the install order, detect
the package manager, load the dependency snapshot from `package.json`
— propagating its failure as an error — run the per-slug planning
loop, and read the existing barrel (empty when absent). -/
def planAdd (ctx : CommandContext) (options : AddOptions) (w : World) :
    Except AddError AddPlan :=
  match load_config ctx with
  | Except.error msg => Except.error (AddError.configErr msg)
  | Except.ok none => Except.error (AddError.missingConfig ctx.config_path)
  | Except.ok (some config) =>
    match list_components ctx.registry with
    | Except.error e => Except.error (AddError.registryErr e)
    | Except.ok registry_components =>
      let component_map := registry_components.map (fun e => (e.slug, e.component))
      match resolve_install_order options.components component_map with
      | Except.error msg => Except.error (AddError.other msg)
      | Except.ok install_order =>
        let workspace_root := ctx.workspace_root
        let package_manager := detect_package_manager w.fs workspace_root
        match PackageSnapshot.load w with
        | Except.error msg => Except.error (AddError.other msg)
        | Except.ok package_snapshot =>
          match planSlugsLoop w config workspace_root component_map
              install_order
              { registry := ctx.registry, runtime_requirements := []
                dev_requirements := [], installed_components := []
                registered_type_exports := [], planned_files := []
                missing_entry_components := [] } with
          | Except.error e => Except.error e
          | Except.ok acc =>
            let barrel_path :=
              workspace_path workspace_root config.exports.components.barrel
            let existing_barrel :=
              match fsLookup w.fs barrel_path with
              | some text => text
              | none => ""
            Except.ok
              { config := config
                config_path := ctx.config_path
                workspace_root := workspace_root
                requested_components := options.components
                component_map := component_map
                install_order := install_order
                planned_files := acc.planned_files
                installed_components := acc.installed_components
                registered_type_exports := acc.registered_type_exports
                runtime_requirements := acc.runtime_requirements
                dev_requirements := acc.dev_requirements
                barrel_path := barrel_path
                existing_barrel := existing_barrel
                package_manager := package_manager
                package_snapshot := package_snapshot
                missing_entry_components := acc.missing_entry_components }

/-- A command context over the demo workspace with a valid parsed
config and an empty static catalog. -/
def c3Ctx : CommandContext :=
  { workspace_root := demoRoot
    config_path := demoRoot ++ [PComponent.normal "motion-core.json"]
    registry := RegistryClient.with_registry c4Registry
    configFile := some (some demoConfig) }

/-- C3: the core `plan` operation does not tolerate a missing or
unparseable `package.json` — `PackageSnapshot::load`'s failure is
propagated and the whole planning step errors, even with a valid
parsed config and an empty request against an empty static catalog;
no empty-snapshot fallback occurs. -/
theorem C3_plan_fails_without_package_json :
    planAdd c3Ctx { components := [] }
        { fs := [], packageJson := none, dirsCreated := [], installsRun := [] } =
      Except.error (AddError.other "failed to read package.json")
    ∧ planAdd c3Ctx { components := [] }
        { fs := [], packageJson := some none, dirsCreated := [], installsRun := [] } =
      Except.error
        (AddError.other "failed to parse package.json for dependency analysis") := by
  constructor
  · simp [planAdd, c3Ctx, load_config, list_components, c4Registry, sortBySlug,
      resolve_install_order, installOrderLoop, PackageSnapshot.load]
  · simp [planAdd, c3Ctx, load_config, list_components, c4Registry, sortBySlug,
      resolve_install_order, installOrderLoop, PackageSnapshot.load]

end MotionCore
